import Mathlib

/-!
splitmix64 and xoroshiro128+ (C++11 headers): a shallow embedding.

The two generators of `splitmix64.hpp` and `xoroshiro128plus.hpp` are embedded as
pure state-passing functions.  A `std::uint64_t` is a natural number below `2 ^ 64`
(the predicate `WF` of each generator), and every operation that can overflow in the
source carries an explicit `% 2 ^ 64`.
-/


/-! ## splitmix64 -/

/-- The class `splitmix64`: its only member is the 64-bit word `state`. -/
structure splitmix64 where
  state : Nat
deriving DecidableEq, Repr

namespace splitmix64

/-- A `splitmix64` object holds a `std::uint64_t`. -/
def WF (g : splitmix64) : Prop := g.state < 2 ^ 64

instance (g : splitmix64) : Decidable g.WF := by unfold WF; infer_instance

/-- The constant `default_seed = UINT64_C(0)`. -/
def default_seed : Nat := 0

/-- The call operator `operator()()`: the returned value and the object after the call.
The sum of `state += UINT64_C(0x9E3779B97F4A7C15)` is written with the constant first,
which keeps the term stuck on the variable `state` during reduction. -/
def next (g : splitmix64) : Nat × splitmix64 :=
  let state := (0x9E3779B97F4A7C15 + g.state) % 2 ^ 64
  let z := state
  let z := ((z ^^^ (z >>> 30)) * 0xBF58476D1CE4E5B9) % 2 ^ 64
  let z := ((z ^^^ (z >>> 27)) * 0x94D049BB133111EB) % 2 ^ 64
  (z ^^^ (z >>> 31), { state := state })

/-- The static member `min()`. -/
def min : Nat := 0

/-- The static member `max()`. -/
def max : Nat := 0xFFFFFFFFFFFFFFFF

/-- The member `seed(result_type i)`: `state = i`. -/
def seed (_g : splitmix64) (i : Nat) : splitmix64 := { state := i }

/-- The constructor `splitmix64(result_type i)`, which calls `seed(i)`. -/
def ctor (i : Nat) : splitmix64 := seed { state := 0 } i

/-- The loop of `discard`: `for (auto i = j; i < j; i++) this->operator()();`
entered with the current value of `i`. -/
def discardLoop (i j : Nat) (g : splitmix64) : splitmix64 :=
  if i < j then discardLoop (i + 1) j (next g).2 else g
termination_by j - i

/-- The member `discard(j)`; the loop counter starts at `j`. -/
def discard (g : splitmix64) (j : Nat) : splitmix64 := discardLoop j j g

/-- The loop of `generate` with `n` words left between `it` and `end`:
each turn draws one value, stores its low 32 bits at `it`, and, unless `it` has
reached `end`, its high 32 bits at the next position. -/
def generateLoop : Nat → Nat → List Nat → splitmix64 → List Nat × splitmix64
  | 0, _, buf, g => (buf, g)
  | 1, it, buf, g =>
    let u := (next g).1
    (buf.set it (u &&& 0xFFFFFFFF), (next g).2)
  | n + 2, it, buf, g =>
    let u := (next g).1
    generateLoop n (it + 2) ((buf.set it (u &&& 0xFFFFFFFF)).set (it + 1) (u >>> 32)) (next g).2

/-- The member `generate(begin, end)` on a buffer of 32-bit words: the buffer after
the call and the object after the call. -/
def generate (buf : List Nat) (g : splitmix64) : List Nat × splitmix64 :=
  generateLoop buf.length 0 buf g

/-- The state left by one call of `operator()()`. -/
def step (g : splitmix64) : splitmix64 := (next g).2

/-- The value returned by the `k`-th successive call (counted from `0`). -/
def output (g : splitmix64) (k : Nat) : Nat := (next (step^[k] g)).1

end splitmix64

/-! ## xoroshiro128plus -/

/-- The class `xoroshiro128plus`: the member `state` is an array of two 64-bit words. -/
structure xoroshiro128plus where
  state0 : Nat
  state1 : Nat
deriving DecidableEq, Repr

namespace xoroshiro128plus

/-- Both words of `state` are `std::uint64_t` values. -/
def WF (g : xoroshiro128plus) : Prop := g.state0 < 2 ^ 64 ∧ g.state1 < 2 ^ 64

instance (g : xoroshiro128plus) : Decidable g.WF := by unfold WF; infer_instance

/-- The constant `default_seed = UINT64_C(1)`. -/
def default_seed : Nat := 1

/-- The private helper `rotl(x, k) = (x << k) | (x >> (64 - k))` on 64-bit words. -/
def rotl (x : Nat) (k : Nat) : Nat := ((x <<< k) % 2 ^ 64) ||| (x >>> (64 - k))

/-- The call operator `operator()()`: the returned value and the object after the call. -/
def next (g : xoroshiro128plus) : Nat × xoroshiro128plus :=
  let s0 := g.state0
  let s1 := g.state1
  let result := (s0 + s1) % 2 ^ 64
  let s1 := s1 ^^^ s0
  (result, { state0 := rotl s0 55 ^^^ s1 ^^^ ((s1 <<< 14) % 2 ^ 64), state1 := rotl s1 36 })

/-- The state left by one call of `operator()()`. -/
def step (g : xoroshiro128plus) : xoroshiro128plus := (next g).2

/-- The static member `min()`. -/
def min : Nat := 1

/-- The static member `max()`. -/
def max : Nat := 0xFFFFFFFFFFFFFFFF

/-- The object seen through `reinterpret_cast<std::uint32_t *>(&state)` on a
little-endian target: four 32-bit words, the low half of each 64-bit word first. -/
def toWords (g : xoroshiro128plus) : List Nat :=
  [g.state0 % 2 ^ 32, g.state0 / 2 ^ 32 % 2 ^ 32, g.state1 % 2 ^ 32, g.state1 / 2 ^ 32 % 2 ^ 32]

/-- The two 64-bit words read back from the four words, each stored as a
`std::uint32_t` (little-endian). -/
def ofWords (ws : List Nat) : xoroshiro128plus :=
  { state0 := ws.getD 0 0 % 2 ^ 32 + 2 ^ 32 * (ws.getD 1 0 % 2 ^ 32)
    state1 := ws.getD 2 0 % 2 ^ 32 + 2 ^ 32 * (ws.getD 3 0 % 2 ^ 32) }

/-- The member template `seed(SeedSeq &s)`: `s.generate(p, p + state.size() * 2)` over
the four words of `state`; returns the object and the seed sequence after the call. -/
def seedSeq {σ : Type} (gen : List Nat → σ → List Nat × σ) (g : xoroshiro128plus) (s : σ) :
    xoroshiro128plus × σ :=
  ((ofWords (gen (toWords g) s).1), (gen (toWords g) s).2)

/-- The member `seed(result_type i)`: a local `splitmix64 rng(i)` is the seed sequence. -/
def seed (g : xoroshiro128plus) (i : Nat) : xoroshiro128plus :=
  (seedSeq splitmix64.generate g (splitmix64.ctor i)).1

/-- The constructor `xoroshiro128plus(result_type i)`, which calls `seed(i)`; the
words of `state` before the call are immaterial, all four are overwritten. -/
def ctor (i : Nat) : xoroshiro128plus := seed { state0 := 0, state1 := 0 } i

/-- The loop of `discard`: `for (auto i = j; i < j; i++) this->operator()();`
entered with the current value of `i`. -/
def discardLoop (i j : Nat) (g : xoroshiro128plus) : xoroshiro128plus :=
  if i < j then discardLoop (i + 1) j (next g).2 else g
termination_by j - i

/-- The member `discard(j)`; the loop counter starts at `j`. -/
def discard (g : xoroshiro128plus) (j : Nat) : xoroshiro128plus := discardLoop j j g

/-- The local constant `JUMP` of `jump()`. -/
def JUMP : List Nat := [0xbeac0467eba5facb, 0xd86b048b86aa9922]

/-- One turn of the inner loop of `jump()` for the word `w = JUMP[i]` and the bit `b`:
the accumulator `(s0, s1)` and the object. -/
def jumpBit (w : Nat) (acc : Nat × Nat × xoroshiro128plus) (b : Nat) :
    Nat × Nat × xoroshiro128plus :=
  let s0 := acc.1
  let s1 := acc.2.1
  let g := acc.2.2
  if w &&& (1 <<< b) ≠ 0 then (s0 ^^^ g.state0, s1 ^^^ g.state1, (next g).2)
  else (s0, s1, (next g).2)

/-- The inner loop `for (int b = 0; b < 64; b++)` of `jump()`. -/
def jumpWord (acc : Nat × Nat × xoroshiro128plus) (w : Nat) : Nat × Nat × xoroshiro128plus :=
  (List.range 64).foldl (jumpBit w) acc

/-- The member `jump()`. -/
def jump (g : xoroshiro128plus) : xoroshiro128plus :=
  let r := JUMP.foldl jumpWord (0, 0, g)
  { state0 := r.1, state1 := r.2.1 }

/-- The value returned by the `k`-th successive call (counted from `0`). -/
def output (g : xoroshiro128plus) (k : Nat) : Nat := (next (step^[k] g)).1

end xoroshiro128plus

/-! ## Polynomials over GF(2) evaluated at a ring element -/

namespace Poly2

/-- Forces its first argument to a numeral before it is passed on; `force a k = k a`. -/
def force {α : Type} (a : Nat) (k : Nat → α) : α :=
  match a with
  | 0 => k 0
  | n + 1 => k (n + 1)

/-- Value at `T` of the polynomial over GF(2) whose coefficient of `X^i` is bit `i`
of `p`, in a ring `R` (Horner's rule from the low bit). -/
def ev {R : Type} [Ring R] (T : R) (p : Nat) : R :=
  if p = 0 then 0 else ((p % 2 : Nat) : R) + T * ev T (p / 2)
termination_by p
decreasing_by omega

/-- Value at `T` of the polynomial whose coefficient of `X^i` is the `i`-th base-256
digit of `x` (Horner's rule from the low digit). -/
def evS {R : Type} [Ring R] (T : R) (x : Nat) : R :=
  if x = 0 then 0 else ((x % 256 : Nat) : R) + T * evS T (x / 256)
termination_by x
decreasing_by omega

/-- Every base-256 digit of `x` is at most `m`. -/
def DigLe (m x : Nat) : Prop := ∀ k, x / 256 ^ k % 256 ≤ m

/-- The characteristic polynomial of the state transition of `xoroshiro128plus`,
bit `i` being the coefficient of `X^i`. -/
def CHARPOLY : Nat := 0x100653ced7f29f88a5fd66762f0e1c001

/-- Quotient of `X^256` by `CHARPOLY` over GF(2); only used to guess quotients. -/
def BARRETT : Nat := 0x1006528fbba63b059d47160c20c65b49d

/-- Spreads the bits of `p` to base-256 digits: bit `i` becomes digit `i`. -/
def sp (p : Nat) : Nat :=
  if p = 0 then 0 else p % 2 + 256 * sp (p / 2)
termination_by p
decreasing_by omega

/-- Accumulating loop that computes `acc + w * sp p` for `p < 2 ^ f`. -/
def spreadAux : Nat → Nat → Nat → Nat → Nat
  | 0, _, _, acc => acc
  | f + 1, p, w, acc =>
    force (if p % 2 = 1 then acc + w else acc) fun acc' =>
    force (p / 2) fun p' =>
    force (256 * w) fun w' => spreadAux f p' w' acc'

/-- The spread form of a polynomial of degree below 130. -/
def spread (p : Nat) : Nat := spreadAux 130 p 1 0

/-- The number with `k` digits `1` in base 256. -/
def maskS : Nat → Nat
  | 0 => 0
  | k + 1 => 1 + 256 * maskS k

/-- The mask that keeps the parity of each of the low 260 digits. -/
def MASK : Nat := maskS 260

/-- The mask that keeps the parity of each of the low 256 digits. -/
def MASKQ : Nat := maskS 256

/-- The spread form of `CHARPOLY`. -/
def CS : Nat := spread CHARPOLY

/-- The spread form of `BARRETT`. -/
def MU : Nat := spread BARRETT

/-- Upper bound of the spread polynomials of degree below 128. -/
def LIMIT : Nat := 256 ^ 128

/-- Product of two spread polynomials of degree below 128 modulo `CHARPOLY`: the
integer product counts the pairs in each digit, the mask keeps the parities, and a
guessed multiple of `CHARPOLY` is added; `none` when the result is not reduced. -/
def mulmodS (a c : Nat) : Option Nat :=
  force ((a * c) &&& MASK) fun p =>
  force ((((p / LIMIT) * MU) &&& MASKQ) / LIMIT) fun q =>
  force (p ^^^ ((q * CS) &&& MASK)) fun r =>
  if r < LIMIT then some r else none

/-- Squares `n` times modulo `CHARPOLY`. -/
def sqIterS : Nat → Nat → Option Nat
  | 0, a => some a
  | n + 1, a =>
    match mulmodS a a with
    | none => none
    | some b => force b (sqIterS n)

/-- Binary powering modulo `CHARPOLY`: `acc * b ^ e` for `e < 2 ^ f`. -/
def ppowS : Nat → Nat → Nat → Nat → Option Nat
  | 0, _, _, acc => some acc
  | f + 1, b, e, acc =>
    match (if e % 2 = 1 then mulmodS acc b else some acc) with
    | none => none
    | some acc' =>
      match mulmodS b b with
      | none => none
      | some b' => force acc' fun acc'' => force b' fun b'' => force (e / 2) fun e' =>
          ppowS f b'' e' acc''

/-- The power `X ^ e` modulo `CHARPOLY` in spread form, for `e < 2 ^ 128`. -/
def xpowS (e : Nat) : Option Nat := ppowS 128 256 e 1

/-- A spread polynomial of degree below 128. -/
def Good (x : Nat) : Prop := DigLe 1 x ∧ x < LIMIT

end Poly2

open Poly2

namespace xoroshiro128plus

/-- Horner loop on a pair of words: for `i` from the given bound down to `0` the
accumulator is stepped once and, when bit `i` of `p` is set, xor-ed with `(g0, g1)`. -/
def polyLoop (p g0 g1 : Nat) : Nat → Nat → Nat → Nat × Nat
  | 0, a0, a1 => (a0, a1)
  | i + 1, a0, a1 =>
    force ((step { state0 := a0, state1 := a1 }).state0 ^^^ (if p.testBit i then g0 else 0))
      fun b0 =>
    force ((step { state0 := a0, state1 := a1 }).state1 ^^^ (if p.testBit i then g1 else 0))
      fun b1 => polyLoop p g0 g1 i b0 b1

/-- The polynomial `p` of degree below 129, evaluated at the state transition,
sends the state `(g0, g1)` to `(0, 0)`. -/
def annihilates (p g0 g1 : Nat) : Bool := decide (polyLoop p g0 g1 129 0 0 = (0, 0))

/-- `CHARPOLY` annihilates each of the 128 one-bit states. -/
def basisCheck : Bool :=
  (List.range 64).all fun j => annihilates CHARPOLY (2 ^ j) 0 && annihilates CHARPOLY 0 (2 ^ j)

/-- Word-wise xor of two states. -/
def sxor (a b : xoroshiro128plus) : xoroshiro128plus :=
  { state0 := a.state0 ^^^ b.state0, state1 := a.state1 ^^^ b.state1 }

/-- The states whose two words are 64-bit values. -/
def WState : Type := { g : xoroshiro128plus // g.WF }

instance : Add WState :=
  ⟨fun a b => ⟨sxor a.1 b.1,
    ⟨Nat.xor_lt_two_pow a.2.1 b.2.1, Nat.xor_lt_two_pow a.2.2 b.2.2⟩⟩⟩

instance : Zero WState := ⟨⟨{ state0 := 0, state1 := 0 }, ⟨by positivity, by positivity⟩⟩⟩

instance : Neg WState := ⟨fun a => a⟩

/-- The 64-bit states form a group of exponent two under word-wise xor. -/
instance : AddCommGroup WState where
  add_assoc a b c := Subtype.ext (by
    show sxor (sxor a.1 b.1) c.1 = sxor a.1 (sxor b.1 c.1)
    simp only [sxor, Nat.xor_assoc])
  zero_add a := Subtype.ext (by
    show sxor { state0 := 0, state1 := 0 } a.1 = a.1
    simp only [sxor, Nat.zero_xor])
  add_zero a := Subtype.ext (by
    show sxor a.1 { state0 := 0, state1 := 0 } = a.1
    simp only [sxor, Nat.xor_zero])
  nsmul := nsmulRec
  zsmul := zsmulRec
  neg_add_cancel a := Subtype.ext (by
    show sxor a.1 a.1 = { state0 := 0, state1 := 0 }
    simp only [sxor, Nat.xor_self])
  add_comm a b := Subtype.ext (by
    show sxor a.1 b.1 = sxor b.1 a.1
    simp only [sxor, Nat.xor_comm a.1.state0, Nat.xor_comm a.1.state1])

/-- The state transition on 64-bit states. -/
def stepW (v : WState) : WState :=
  ⟨step v.1, by
    have hr : ∀ x k, x < 2 ^ 64 → rotl x k < 2 ^ 64 := by
      intro x k hx
      unfold rotl
      apply Nat.or_lt_two_pow (Nat.mod_lt _ (by positivity))
      rw [Nat.shiftRight_eq_div_pow]
      exact lt_of_le_of_lt (Nat.div_le_self _ _) hx
    have ht : v.1.state1 ^^^ v.1.state0 < 2 ^ 64 := Nat.xor_lt_two_pow v.2.2 v.2.1
    exact ⟨Nat.xor_lt_two_pow (Nat.xor_lt_two_pow (hr _ _ v.2.1) ht)
      (Nat.mod_lt _ (by positivity)), hr _ _ ht⟩⟩

/-- The state transition as an endomorphism of the xor group: it is additive because
rotations, shifts and xor act bit by bit. -/
def T : AddMonoid.End WState :=
  AddMonoidHom.mk' stepW (by
    have hrot : ∀ x y k, x < 2 ^ 64 → y < 2 ^ 64 → 0 < k → k < 64 →
        rotl (x ^^^ y) k = rotl x k ^^^ rotl y k := by
      intro x y k hx hy hk hk'
      apply Nat.eq_of_testBit_eq
      intro i
      unfold rotl
      simp only [Nat.testBit_or, Nat.testBit_xor, Nat.testBit_mod_two_pow,
        Nat.testBit_shiftLeft, Nat.testBit_shiftRight]
      by_cases h : k ≤ i
      · have hz : ∀ z, z < 2 ^ 64 → z.testBit (64 - k + i) = false := fun z hz =>
          Nat.testBit_lt_two_pow
            (lt_of_lt_of_le hz (Nat.pow_le_pow_right (by norm_num) (by omega)))
        rw [hz x hx, hz y hy]
        cases decide (i < 64) <;> cases decide (i ≥ k) <;> simp
      · simp [h]
    have hshl : ∀ x y k, ((x ^^^ y) <<< k) % 2 ^ 64 =
        ((x <<< k) % 2 ^ 64) ^^^ ((y <<< k) % 2 ^ 64) := by
      intro x y k
      apply Nat.eq_of_testBit_eq
      intro i
      simp only [Nat.testBit_xor, Nat.testBit_mod_two_pow, Nat.testBit_shiftLeft]
      cases decide (i < 64) <;> cases decide (i ≥ k) <;> simp
    rintro ⟨⟨a0, a1⟩, ha0, ha1⟩ ⟨⟨b0, b1⟩, hb0, hb1⟩
    apply Subtype.ext
    show step (sxor { state0 := a0, state1 := a1 } { state0 := b0, state1 := b1 }) =
      sxor (step { state0 := a0, state1 := a1 }) (step { state0 := b0, state1 := b1 })
    simp only at ha0 ha1 hb0 hb1
    have e : (a1 ^^^ b1) ^^^ (a0 ^^^ b0) = (a1 ^^^ a0) ^^^ (b1 ^^^ b0) := by ac_rfl
    simp only [step, next, sxor, mk.injEq]
    rw [e, hrot a0 b0 55 ha0 hb0 (by norm_num) (by norm_num),
      hrot _ _ 36 (Nat.xor_lt_two_pow ha1 ha0) (Nat.xor_lt_two_pow hb1 hb0) (by norm_num)
        (by norm_num), hshl]
    refine ⟨?_, rfl⟩
    ac_rfl)

/-- The 64-bit state with words `a mod 2^64` and `b mod 2^64`. -/
def W (a b : Nat) : WState :=
  ⟨{ state0 := a % 2 ^ 64, state1 := b % 2 ^ 64 },
    ⟨Nat.mod_lt _ (by positivity), Nat.mod_lt _ (by positivity)⟩⟩

/-- The 128-bit jump constant: `JUMP[0]` in bits 0..63 and `JUMP[1]` in bits 64..127. -/
def JUMPPOLY : Nat := 0xd86b048b86aa9922beac0467eba5facb

end xoroshiro128plus


namespace Poly2

/-- Binary powering of natural numbers modulo `m`: `acc * a ^ e` for `e < 2 ^ f`. -/
def npowmod : Nat → Nat → Nat → Nat → Nat → Nat
  | 0, _, _, _, acc => acc
  | f + 1, a, e, m, acc =>
    force (if e % 2 = 1 then acc * a % m else acc) fun acc' =>
    force (a * a % m) fun a' =>
    force (e / 2) fun e' => npowmod f a' e' m acc'

/-- The prime factors of `2^128 - 1`. -/
def periodPrimes : List Nat := [3, 5, 17, 257, 641, 65537, 274177, 6700417, 67280421310721]

/-- For each prime factor `q` of `2^128 - 1`, the inverse of `X^((2^128-1)/q) + 1`
modulo `CHARPOLY`. -/
def periodCerts : List (Nat × Nat) := [
  (3, 0xff8cefb76846895353ca0f0fe69d9ac1),
  (5, 0x44746645e1e994f5f0fe77cc421dfaaa),
  (17, 0x32c47704c6cdf7931acf2a818a19f62d),
  (257, 0x96f288cba5870497fd983bf5d14bdbeb),
  (641, 0xa7e437605ed5e3ae3e409dba24fc1dcd),
  (65537, 0xecb57a9ef6f5a6fff4387293b32f3b0c),
  (274177, 0xe9e260cf9faf324aeb4d0d5da638cf50),
  (6700417, 0x14ca8334099b25f5a6585d516b1fd6f1),
  (67280421310721, 0x139bd4d8ba1f6134c128219c7d36e79d)]

/-- Checks that `b` times `X^((2^128-1)/q) + 1` is `1` modulo `CHARPOLY`. -/
def certOk (q b : Nat) : Bool :=
  decide (b < 2 ^ 128) &&
    match xpowS ((2 ^ 128 - 1) / q) with
    | none => false
    | some y => force y fun y' => decide (mulmodS (spread b) (y' ^^^ 1) = some 1)

end Poly2

namespace xoroshiro128plus

/-- A state with the proof that its words are 64-bit values. -/
def ofWF (g : xoroshiro128plus) (h : g.WF) : WState := ⟨g, h⟩

/-- A 64-bit state is a pair of numbers below `2^64`. -/
def wstateEquiv : WState ≃ Fin (2 ^ 64) × Fin (2 ^ 64) where
  toFun v := (⟨v.1.state0, v.2.1⟩, ⟨v.1.state1, v.2.2⟩)
  invFun p := ⟨{ state0 := p.1.1, state1 := p.2.1 }, ⟨p.1.2, p.2.2⟩⟩
  left_inv _ := rfl
  right_inv _ := rfl

end xoroshiro128plus

namespace splitmix64

/-- The object seen through `reinterpret_cast<std::uint32_t *>(&state)` on a
little-endian target: two 32-bit words, the low half first. -/
def toWords (g : splitmix64) : List Nat := [g.state % 2 ^ 32, g.state / 2 ^ 32 % 2 ^ 32]

/-- The 64-bit word read back from the two words, each stored as a `std::uint32_t`
(little-endian). -/
def ofWords (ws : List Nat) : splitmix64 :=
  { state := ws.getD 0 0 % 2 ^ 32 + 2 ^ 32 * (ws.getD 1 0 % 2 ^ 32) }

/-- The member template `seed(SeedSeq &s)`: `s.generate(p, p + 2)` over the two words of
`state`; returns the object and the seed sequence after the call. -/
def seedSeq {σ : Type} (gen : List Nat → σ → List Nat × σ) (g : splitmix64) (s : σ) :
    splitmix64 × σ :=
  ((ofWords (gen (toWords g) s).1), (gen (toWords g) s).2)

end splitmix64

namespace xoroshiro128plus

/-- Bit `i` of the 128-bit jump constant as the loops of `jump()` visit it: bit `b` of
`JUMP[0]` is position `b`, bit `b` of `JUMP[1]` is position `64 + b`. -/
def jumpBitAt (i : Nat) : Bool :=
  if i < 64 then (0xbeac0467eba5facb : Nat).testBit i
  else (0xd86b048b86aa9922 : Nat).testBit (i - 64)

/-- The word-wise xor, over the positions `i < n` that are set in the jump constant, of
the state reached from `g` after `i` calls of `operator()`, starting from `(0, 0)`. -/
def xorOrbit (g : xoroshiro128plus) : Nat → xoroshiro128plus
  | 0 => { state0 := 0, state1 := 0 }
  | n + 1 => if jumpBitAt n then sxor (xorOrbit g n) (step^[n] g) else xorOrbit g n

/-- The operations that change the state of an object without reseeding it. -/
inductive Op where
  | next : Op
  | jump : Op
  | discard : Nat → Op

/-- The state after one operation. -/
def Op.apply : Op → xoroshiro128plus → xoroshiro128plus
  | .next, g => (xoroshiro128plus.next g).2
  | .jump, g => xoroshiro128plus.jump g
  | .discard n, g => xoroshiro128plus.discard g n

/-- The state after a sequence of operations, the first of the list first. -/
def run (ops : List Op) (g : xoroshiro128plus) : xoroshiro128plus :=
  ops.foldl (fun h op => op.apply h) g

end xoroshiro128plus

/-! ## Proofs -/

namespace xoroshiro128plus

theorem rotl_lt (x k : Nat) (hx : x < 2 ^ 64) : rotl x k < 2 ^ 64 := by
  unfold rotl
  apply Nat.or_lt_two_pow (Nat.mod_lt _ (by positivity))
  rw [Nat.shiftRight_eq_div_pow]
  apply Nat.div_lt_of_lt_mul
  calc x < 2 ^ 64 := hx
    _ = 1 * 2 ^ 64 := by ring
    _ ≤ 2 ^ (64 - k) * 2 ^ 64 := Nat.mul_le_mul_right _ (Nat.one_le_two_pow)

theorem testBit_rotl (x k i : Nat) (hx : x < 2 ^ 64) (hk : 0 < k) (hk' : k < 64) (hi : i < 64) :
    (rotl x k).testBit i = x.testBit ((i + (64 - k)) % 64) := by
  unfold rotl
  rw [Nat.testBit_or, Nat.testBit_mod_two_pow, Nat.testBit_shiftLeft, Nat.testBit_shiftRight]
  by_cases h : k ≤ i
  · have e : (i + (64 - k)) % 64 = i - k := by omega
    have hz : x.testBit (64 - k + i) = false :=
      Nat.testBit_lt_two_pow (lt_of_lt_of_le hx (Nat.pow_le_pow_right (by norm_num) (by omega)))
    simp [e, hz, hi, h]
  · have e : (i + (64 - k)) % 64 = 64 - k + i := by omega
    simp [e, h]

theorem xo_next_WF (g : xoroshiro128plus) (h : g.WF) : (next g).2.WF := by
  obtain ⟨h0, h1⟩ := h
  have ht : g.state1 ^^^ g.state0 < 2 ^ 64 := Nat.xor_lt_two_pow h1 h0
  refine ⟨?_, rotl_lt _ _ ht⟩
  exact Nat.xor_lt_two_pow (Nat.xor_lt_two_pow (rotl_lt _ _ h0) ht)
    (Nat.mod_lt _ (by positivity))

/-- C1: from every state `(s0, s1)` of 64-bit words one call returns
`(s0 + s1) mod 2^64` and leaves `(rotl(s0,55) xor t xor (t << 14 mod 2^64), rotl(t,36))`
with `t = s1 xor s0`, both words being functions of the old pair; `rotl(x,k)` is the
64-bit left rotation: a 64-bit word whose bit `i` is bit `(i - k) mod 64` of `x`. -/
theorem xo_next_contract (s0 s1 : Nat) (h0 : s0 < 2 ^ 64) (h1 : s1 < 2 ^ 64) :
    (next { state0 := s0, state1 := s1 }).1 = (s0 + s1) % 2 ^ 64 ∧
    (next { state0 := s0, state1 := s1 }).2 =
      { state0 := rotl s0 55 ^^^ (s1 ^^^ s0) ^^^ (((s1 ^^^ s0) <<< 14) % 2 ^ 64),
        state1 := rotl (s1 ^^^ s0) 36 } ∧
    (∀ x k, x < 2 ^ 64 → 0 < k → k < 64 →
      rotl x k < 2 ^ 64 ∧ ∀ i, i < 64 → (rotl x k).testBit i = x.testBit ((i + (64 - k)) % 64)) ∧
    (next { state0 := s0, state1 := s1 }).2.WF := by
  refine ⟨rfl, rfl, ?_, xo_next_WF _ ⟨h0, h1⟩⟩
  intro x k hx hk hk'
  exact ⟨rotl_lt x k hx, fun i hi => testBit_rotl x k i hx hk hk' hi⟩

theorem xo_next_contract_witness :
    (next { state0 := 1, state1 := 2 }).1 = (1 + 2) % 2 ^ 64 ∧
    (next { state0 := 1, state1 := 2 }).2 =
      { state0 := rotl 1 55 ^^^ (2 ^^^ 1) ^^^ (((2 ^^^ 1) <<< 14) % 2 ^ 64),
        state1 := rotl (2 ^^^ 1) 36 } ∧
    (∀ x k, x < 2 ^ 64 → 0 < k → k < 64 →
      rotl x k < 2 ^ 64 ∧ ∀ i, i < 64 → (rotl x k).testBit i = x.testBit ((i + (64 - k)) % 64)) ∧
    (next { state0 := 1, state1 := 2 }).2.WF :=
  xo_next_contract 1 2 (by norm_num) (by norm_num)

end xoroshiro128plus

namespace splitmix64

theorem sm_next_WF (g : splitmix64) : (next g).2.WF := by
  unfold WF next
  exact Nat.mod_lt _ (by positivity)

theorem next_lt (g : splitmix64) : (next g).1 < 2 ^ 64 := by
  unfold next
  apply Nat.xor_lt_two_pow (Nat.mod_lt _ (by positivity))
  rw [Nat.shiftRight_eq_div_pow]
  exact lt_of_le_of_lt (Nat.div_le_self _ _) (Nat.mod_lt _ (by positivity))

/-- C2: from every state `s` one call leaves the state `(s + 0x9E3779B97F4A7C15) mod 2^64`
and returns `z3 xor (z3 >> 31)` where `z1` is the new state,
`z2 = ((z1 xor (z1 >> 30)) * 0xBF58476D1CE4E5B9) mod 2^64` and
`z3 = ((z2 xor (z2 >> 27)) * 0x94D049BB133111EB) mod 2^64`; the returned value is a
function of the state before the call and is a 64-bit word. -/
theorem sm_next_contract (s : Nat) :
    (next { state := s }).2.state = (s + 0x9E3779B97F4A7C15) % 2 ^ 64 ∧
    (let z1 := (next { state := s }).2.state
     let z2 := ((z1 ^^^ (z1 >>> 30)) * 0xBF58476D1CE4E5B9) % 2 ^ 64
     let z3 := ((z2 ^^^ (z2 >>> 27)) * 0x94D049BB133111EB) % 2 ^ 64
     (next { state := s }).1 = z3 ^^^ (z3 >>> 31)) ∧
    (next { state := s }).1 < 2 ^ 64 := by
  refine ⟨?_, ?_, ?_⟩
  · simp only [next, Nat.add_comm]
  · simp only [next]
  · exact next_lt _

theorem output_zero (g : splitmix64) : output g 0 = (next g).1 := rfl

theorem output_succ (g : splitmix64) (i : Nat) : output (step g) i = output g (i + 1) := by
  unfold output
  rw [Function.iterate_succ_apply]

theorem generateLoop_spec (n : Nat) : ∀ (it : Nat) (buf : List Nat) (g : splitmix64),
    it + n = buf.length →
    (generateLoop n it buf g).1.length = buf.length ∧
    (∀ i, 2 * i < n →
      (generateLoop n it buf g).1[it + 2 * i]? = some (output g i &&& 0xFFFFFFFF)) ∧
    (∀ i, 2 * i + 1 < n →
      (generateLoop n it buf g).1[it + (2 * i + 1)]? = some (output g i >>> 32)) ∧
    (∀ j, j < it → (generateLoop n it buf g).1[j]? = buf[j]?) := by
  induction n using Nat.strong_induction_on with
  | _ n ih =>
    intro it buf g h
    match n, ih, h with
    | 0, _, _ =>
      refine ⟨rfl, fun i hi => absurd hi (Nat.not_lt_zero _),
        fun i hi => absurd hi (Nat.not_lt_zero _), fun j _ => rfl⟩
    | 1, _, h =>
      simp only [generateLoop]
      refine ⟨List.length_set _ _ _, ?_, ?_, ?_⟩
      · intro i hi
        have hi0 : i = 0 := by omega
        subst hi0
        simp only [Nat.mul_zero, Nat.add_zero]
        rw [List.getElem?_set_self (by omega)]
        rfl
      · intro i hi
        omega
      · intro j hj
        exact List.getElem?_set_ne (by omega)
    | n + 2, ih, h =>
      simp only [generateLoop]
      have hlen : it + 2 + n =
          ((buf.set it ((next g).1 &&& 0xFFFFFFFF)).set (it + 1) ((next g).1 >>> 32)).length := by
        rw [List.length_set, List.length_set]
        omega
      obtain ⟨h1, h2, h3, h4⟩ := ih n (by omega) (it + 2)
        ((buf.set it ((next g).1 &&& 0xFFFFFFFF)).set (it + 1) ((next g).1 >>> 32))
        (next g).2 hlen
      refine ⟨?_, ?_, ?_, ?_⟩
      · rw [h1, List.length_set, List.length_set]
      · intro i hi
        cases i with
        | zero =>
          simp only [Nat.mul_zero, Nat.add_zero]
          rw [h4 it (by omega), List.getElem?_set_ne (by omega),
            List.getElem?_set_self (by omega)]
          rfl
        | succ i =>
          have e : it + 2 * (i + 1) = it + 2 + 2 * i := by ring
          rw [e, h2 i (by omega)]
          exact congrArg (fun u => some (u &&& 0xFFFFFFFF)) (output_succ g i)
      · intro i hi
        cases i with
        | zero =>
          simp only [Nat.mul_zero, Nat.zero_add]
          rw [h4 (it + 1) (by omega),
            List.getElem?_set_self (by rw [List.length_set]; omega)]
          rfl
        | succ i =>
          have e : it + (2 * (i + 1) + 1) = it + 2 + (2 * i + 1) := by ring
          rw [e, h3 i (by omega)]
          exact congrArg (fun u => some (u >>> 32)) (output_succ g i)
      · intro j hj
        rw [h4 j (by omega), List.getElem?_set_ne (by omega), List.getElem?_set_ne (by omega)]

/-- C5: for every state and every buffer of length `n`, `generate` leaves a buffer of
length `n` in which word `2i` (when `2i < n`) is the low 32 bits of the `(i+1)`-th
output and word `2i+1` (when `2i+1 < n`) is the high 32 bits of that output; hence for
`n = 2m` the pairs reassemble (low first) to the first `m` outputs, and for `n = 2m+1`
the final word is the low half of the `(m+1)`-th output. -/
theorem generate_words (g : splitmix64) (buf : List Nat) :
    (generate buf g).1.length = buf.length ∧
    (∀ i, 2 * i < buf.length → (generate buf g).1[2 * i]? = some (output g i % 2 ^ 32)) ∧
    (∀ i, 2 * i + 1 < buf.length →
      (generate buf g).1[2 * i + 1]? = some (output g i / 2 ^ 32 % 2 ^ 32)) ∧
    (∀ m, buf.length = 2 * m → ∀ i, i < m → ∃ lo hi,
      (generate buf g).1[2 * i]? = some lo ∧ (generate buf g).1[2 * i + 1]? = some hi ∧
      lo + 2 ^ 32 * hi = output g i) ∧
    (∀ m, buf.length = 2 * m + 1 → (generate buf g).1[2 * m]? = some (output g m % 2 ^ 32)) := by
  obtain ⟨h1, h2, h3, -⟩ := generateLoop_spec buf.length 0 buf g (Nat.zero_add _)
  have hlo : ∀ u : Nat, u &&& 0xFFFFFFFF = u % 2 ^ 32 := fun u =>
    Nat.and_pow_two_sub_one_eq_mod u 32
  have hlt : ∀ i, output g i < 2 ^ 64 := fun i => next_lt _
  have hhi : ∀ i, output g i >>> 32 = output g i / 2 ^ 32 % 2 ^ 32 := by
    intro i
    rw [Nat.shiftRight_eq_div_pow, Nat.mod_eq_of_lt]
    exact Nat.div_lt_of_lt_mul (by have := hlt i; norm_num at this ⊢; exact this)
  have e2 : ∀ i, 2 * i < buf.length →
      (generate buf g).1[2 * i]? = some (output g i % 2 ^ 32) := by
    intro i hi
    have := h2 i hi
    rw [Nat.zero_add, hlo] at this
    exact this
  have e3 : ∀ i, 2 * i + 1 < buf.length →
      (generate buf g).1[2 * i + 1]? = some (output g i / 2 ^ 32 % 2 ^ 32) := by
    intro i hi
    have := h3 i hi
    rw [Nat.zero_add, hhi] at this
    exact this
  refine ⟨h1, e2, e3, ?_, ?_⟩
  · intro m hm i hi
    refine ⟨_, _, e2 i (by omega), e3 i (by omega), ?_⟩
    rw [← hhi, Nat.shiftRight_eq_div_pow]
    exact Nat.mod_add_div _ _
  · intro m hm
    exact e2 m (by omega)

theorem step_state (g : splitmix64) :
    (step g).state = (g.state + 0x9E3779B97F4A7C15) % 2 ^ 64 := by
  simp only [step, next, Nat.add_comm]

theorem iterate_step_state (g : splitmix64) (hg : g.WF) (k : Nat) :
    (step^[k] g).state = (g.state + k * 0x9E3779B97F4A7C15) % 2 ^ 64 := by
  induction k with
  | zero =>
    simp only [Function.iterate_zero, id_eq, Nat.zero_mul, Nat.add_zero]
    exact (Nat.mod_eq_of_lt hg).symm
  | succ k ih =>
    rw [Function.iterate_succ_apply', step_state, ih, Nat.mod_add_mod, Nat.succ_mul, Nat.add_assoc]

theorem gamma_coprime : Nat.Coprime (2 ^ 64) 0x9E3779B97F4A7C15 := by
  apply Nat.Coprime.pow_left
  norm_num

theorem gamma_mul_cancel (s i j : Nat) (hij : i ≤ j)
    (h : (s + i * 0x9E3779B97F4A7C15) % 2 ^ 64 = (s + j * 0x9E3779B97F4A7C15) % 2 ^ 64) :
    2 ^ 64 ∣ j - i := by
  have h1 : i * 0x9E3779B97F4A7C15 ≡ j * 0x9E3779B97F4A7C15 [MOD 2 ^ 64] :=
    Nat.ModEq.add_left_cancel' s h
  have h2 : 2 ^ 64 ∣ j * 0x9E3779B97F4A7C15 - i * 0x9E3779B97F4A7C15 :=
    (Nat.modEq_iff_dvd' (Nat.mul_le_mul_right _ hij)).1 h1
  rw [← Nat.sub_mul] at h2
  exact gamma_coprime.dvd_of_dvd_mul_right h2

/-- C10: from every 64-bit state `s` the state after `k` calls is
`(s + k * 0x9E3779B97F4A7C15) mod 2^64`; it differs from `s` for `0 < k < 2^64`, is `s`
again for `k = 2^64`, and the states after `i < j < 2^64` calls are pairwise different,
so all `2^64` counter values are visited before any repeats. -/
theorem full_period (s : Nat) (hs : s < 2 ^ 64) :
    (∀ k, (step^[k] { state := s }).state = (s + k * 0x9E3779B97F4A7C15) % 2 ^ 64) ∧
    (∀ k, 0 < k → k < 2 ^ 64 → step^[k] { state := s } ≠ { state := s }) ∧
    step^[2 ^ 64] { state := s } = { state := s } ∧
    (∀ i j, i < j → j < 2 ^ 64 → step^[i] { state := s } ≠ step^[j] { state := s }) := by
  have key : ∀ k, (step^[k] { state := s }).state = (s + k * 0x9E3779B97F4A7C15) % 2 ^ 64 := by
    intro k
    exact iterate_step_state { state := s } hs k
  have distinct : ∀ i j, i < j → j < 2 ^ 64 →
      step^[i] { state := s } ≠ step^[j] { state := s } := by
    intro i j hij hj heq
    have h := congrArg splitmix64.state heq
    rw [key, key] at h
    have hd := gamma_mul_cancel s i j hij.le h
    have h64 : 2 ^ 64 ≤ j - i := Nat.le_of_dvd (Nat.sub_pos_of_lt hij) hd
    exact absurd (lt_of_le_of_lt (le_trans h64 (Nat.sub_le j i)) hj) (lt_irrefl _)
  refine ⟨key, ?_, ?_, distinct⟩
  · intro k hk hk' heq
    exact distinct 0 k hk hk' heq.symm
  · have h := key (2 ^ 64)
    have e : (s + 2 ^ 64 * 0x9E3779B97F4A7C15) % 2 ^ 64 = s := by
      rw [Nat.add_mul_mod_self_left]
      exact Nat.mod_eq_of_lt hs
    rw [e] at h
    cases hg : step^[2 ^ 64] { state := s } with
    | mk st =>
      rw [hg] at h
      simp only at h
      rw [h]

theorem full_period_witness :
    (∀ k, (step^[k] { state := 5 }).state = (5 + k * 0x9E3779B97F4A7C15) % 2 ^ 64) ∧
    (∀ k, 0 < k → k < 2 ^ 64 → step^[k] { state := 5 } ≠ { state := 5 }) ∧
    step^[2 ^ 64] { state := 5 } = { state := 5 } ∧
    (∀ i j, i < j → j < 2 ^ 64 → step^[i] { state := 5 } ≠ step^[j] { state := 5 }) :=
  full_period 5 (by norm_num)

end splitmix64

namespace xoroshiro128plus

theorem join_halves (u : Nat) (hu : u < 2 ^ 64) :
    (u &&& 0xFFFFFFFF) % 2 ^ 32 + 2 ^ 32 * ((u >>> 32) % 2 ^ 32) = u := by
  have h : u &&& 0xFFFFFFFF = u % 2 ^ 32 := Nat.and_pow_two_sub_one_eq_mod u 32
  have hhi : u / 2 ^ 32 < 2 ^ 32 := Nat.div_lt_of_lt_mul (by norm_num at hu ⊢; exact hu)
  rw [h, Nat.shiftRight_eq_div_pow, Nat.mod_mod, Nat.mod_eq_of_lt hhi]
  exact Nat.mod_add_div _ _

theorem seedSeq_splitmix (g : xoroshiro128plus) (r : splitmix64) :
    (seedSeq splitmix64.generate g r).1 =
      { state0 := splitmix64.output r 0, state1 := splitmix64.output r 1 } := by
  simp only [seedSeq, splitmix64.generate, toWords, List.length_cons, List.length_nil,
    splitmix64.generateLoop, ofWords, List.set_cons_zero, List.set_cons_succ, List.getD_cons_zero,
    List.getD_cons_succ, join_halves _ (splitmix64.next_lt _)]
  rfl

/-- C4: for every seed value `v`, `seed(v)` (and construction from `v`) leaves
`s0` equal to the first and `s1` equal to the second output of a `splitmix64` seeded
with `v` (four 32-bit words, low half first, little-endian view of the state); the first
draw after seeding is the sum modulo `2^64` of those outputs, in particular for the
default seed `1`, where it is `5761717516557699368`. -/
theorem seed_state (g : xoroshiro128plus) (v : Nat) :
    seed g v = { state0 := splitmix64.output (splitmix64.ctor v) 0,
                 state1 := splitmix64.output (splitmix64.ctor v) 1 } ∧
    ctor v = seed g v ∧
    (next (seed g v)).1 =
      (splitmix64.output (splitmix64.ctor v) 0 + splitmix64.output (splitmix64.ctor v) 1)
        % 2 ^ 64 ∧
    (next (ctor default_seed)).1 =
      (splitmix64.output (splitmix64.ctor 1) 0 + splitmix64.output (splitmix64.ctor 1) 1)
        % 2 ^ 64 ∧
    (next (ctor default_seed)).1 = 5761717516557699368 := by
  have h : ∀ g' : xoroshiro128plus, seed g' v =
      { state0 := splitmix64.output (splitmix64.ctor v) 0,
        state1 := splitmix64.output (splitmix64.ctor v) 1 } :=
    fun g' => seedSeq_splitmix g' (splitmix64.ctor v)
  refine ⟨h g, ?_, ?_, ?_, ?_⟩
  · rw [h g]
    exact h _
  · rw [h g]
    rfl
  · unfold ctor default_seed
    rw [seed, seedSeq_splitmix]
    rfl
  · unfold ctor default_seed
    rw [seed, seedSeq_splitmix]
    decide

theorem discardLoop_self (g : xoroshiro128plus) (j : Nat) : discardLoop j j g = g := by
  rw [discardLoop, if_neg (Nat.lt_irrefl j)]

/-- C6 (the code at a failing input): from the state `(1, 2)`, `discard(1)` followed by
a draw returns `3`, the first value of the stream, while the second value of the stream
is `36029003177443331`; from the `splitmix64` state `0` likewise `discard(1)` followed
by a draw returns the first value and not the second. -/
theorem discard_then_next_is_first :
    (next (discard { state0 := 1, state1 := 2 } 1)).1 = 3 ∧
    output { state0 := 1, state1 := 2 } 1 = 36029003177443331 ∧
    (splitmix64.next (splitmix64.discard { state := 0 } 1)).1 = 16294208416658607535 ∧
    splitmix64.output { state := 0 } 1 = 7960286522194355700 := by
  refine ⟨?_, by decide, ?_, by decide⟩
  · rw [discard, discardLoop_self]
    decide
  · rw [splitmix64.discard, splitmix64.discardLoop, if_neg (Nat.lt_irrefl 1)]
    decide

theorem step_zero : step { state0 := 0, state1 := 0 } = { state0 := 0, state1 := 0 } := by
  decide

theorem iterate_step_zero (k : Nat) :
    step^[k] { state0 := 0, state1 := 0 } = { state0 := 0, state1 := 0 } :=
  Function.iterate_fixed step_zero k

/-- C7: the state `(0, 0)` is absorbing: a draw from it returns `0` and leaves `(0, 0)`,
after any number of draws the state is `(0, 0)` and the next value is `0`, and `jump()`
and `discard(n)` leave `(0, 0)`. -/
theorem zero_absorbing :
    next { state0 := 0, state1 := 0 } = (0, { state0 := 0, state1 := 0 }) ∧
    (∀ k, step^[k] { state0 := 0, state1 := 0 } = { state0 := 0, state1 := 0 }) ∧
    (∀ k, output { state0 := 0, state1 := 0 } k = 0) ∧
    jump { state0 := 0, state1 := 0 } = { state0 := 0, state1 := 0 } ∧
    (∀ n, discard { state0 := 0, state1 := 0 } n = { state0 := 0, state1 := 0 }) := by
  refine ⟨by decide, iterate_step_zero, ?_, by decide!, fun n => discardLoop_self _ n⟩
  intro k
  unfold output
  rw [iterate_step_zero]
  decide

/-- C8 (the code at a failing input): from the non-zero state `(1, 2^64 - 1)` a draw
returns `0`, which is below the declared `min() = 1`; the bound `max() = 2^64 - 1`
holds for every draw. -/
theorem draw_below_min :
    (next { state0 := 1, state1 := 2 ^ 64 - 1 }).1 = 0 ∧
    ¬ (min ≤ (next { state0 := 1, state1 := 2 ^ 64 - 1 }).1) ∧
    min = 1 ∧ max = 2 ^ 64 - 1 ∧
    (∀ g : xoroshiro128plus, (next g).1 ≤ max) := by
  refine ⟨by decide, by decide, rfl, by decide, ?_⟩
  intro g
  have h : (next g).1 < 2 ^ 64 := Nat.mod_lt _ (by positivity)
  have hm : max = 2 ^ 64 - 1 := by decide
  rw [hm]
  exact Nat.le_pred_of_lt h

end xoroshiro128plus

namespace Poly2

theorem force_eq {α : Type} (a : Nat) (k : Nat → α) : force a k = k a := by
  cases a <;> rfl

section Algebra

variable {R : Type} [Ring R] (T : R)

theorem ev_zero : ev T 0 = 0 := by
  rw [ev, if_pos rfl]

theorem ev_eq (p : Nat) : ev T p = ((p % 2 : Nat) : R) + T * ev T (p / 2) := by
  by_cases h : p = 0
  · subst h
    simp [ev_zero]
  · rw [ev, if_neg h]

theorem ev_one : ev T 1 = 1 := by
  rw [ev_eq]
  simp [ev_zero]

theorem ev_two_mul (p : Nat) : ev T (2 * p) = T * ev T p := by
  rw [ev_eq]
  simp

theorem cast_mod_two (h2 : (2 : R) = 0) (d : Nat) : ((d % 2 : Nat) : R) = (d : R) := by
  conv_rhs => rw [← Nat.div_add_mod d 2]
  push_cast
  rw [h2]
  simp

theorem ev_xor (h2 : (2 : R) = 0) (a b : Nat) : ev T (a ^^^ b) = ev T a + ev T b := by
  induction a using Nat.strong_induction_on generalizing b with
  | _ a ih =>
    by_cases ha : a = 0
    · subst ha
      simp [ev_zero]
    · rw [ev_eq T (a ^^^ b), ev_eq T a, ev_eq T b, Nat.xor_div_two, ih (a / 2) (by omega),
        Nat.xor_mod_two_eq, cast_mod_two h2, Nat.cast_add, ← cast_mod_two h2 a,
        ← cast_mod_two h2 b, mul_add]
      abel

theorem ev_two_pow (k : Nat) : ev T (2 ^ k) = T ^ k := by
  induction k with
  | zero => simpa using ev_one T
  | succ k ih => rw [pow_succ', ev_two_mul, ih, pow_succ']

theorem ev_commute (p : Nat) : Commute T (ev T p) := by
  induction p using Nat.strong_induction_on with
  | _ p ih =>
    by_cases hp : p = 0
    · subst hp
      rw [ev_zero]
      exact Commute.zero_right T
    · rw [ev_eq]
      exact ((Nat.cast_commute _ T).symm).add_right
        ((Commute.refl T).mul_right (ih (p / 2) (by omega)))

theorem ev_shiftLeft (p k : Nat) : ev T (p <<< k) = T ^ k * ev T p := by
  induction k with
  | zero => simp
  | succ k ih =>
    have e : p <<< (k + 1) = 2 * (p <<< k) := by
      rw [Nat.shiftLeft_eq, Nat.shiftLeft_eq, pow_succ]
      ring
    rw [e, ev_two_mul, ih, pow_succ', mul_assoc]

theorem mod_two_pow_succ_xor (p k : Nat) :
    p % 2 ^ (k + 1) = (p % 2 ^ k) ^^^ (if p.testBit k then 2 ^ k else 0) := by
  apply Nat.eq_of_testBit_eq
  intro i
  rw [Nat.testBit_xor, Nat.testBit_mod_two_pow, Nat.testBit_mod_two_pow]
  by_cases hb : p.testBit k = true
  · rw [if_pos hb, Nat.testBit_two_pow]
    by_cases hik : k = i
    · subst hik
      simp [hb]
    · have : (i < k + 1) = (i < k) := by
        apply propext
        omega
      simp [hik, this]
  · rw [if_neg hb, Nat.zero_testBit]
    by_cases hik : k = i
    · subst hik
      simp at hb
      simp [hb]
    · have : (i < k + 1) = (i < k) := by
        apply propext
        omega
      simp [this]

theorem ev_mod_succ (h2 : (2 : R) = 0) (p k : Nat) :
    ev T (p % 2 ^ (k + 1)) = ev T (p % 2 ^ k) + (if p.testBit k then T ^ k else 0) := by
  rw [mod_two_pow_succ_xor, ev_xor T h2]
  by_cases hb : p.testBit k = true
  · rw [if_pos hb, if_pos hb, ev_two_pow]
  · rw [if_neg hb, if_neg hb, ev_zero]

end Algebra

section Spread

variable {R : Type} [Ring R] (T : R)

theorem evS_zero : evS T 0 = 0 := by
  rw [evS, if_pos rfl]

theorem evS_eq (x : Nat) : evS T x = ((x % 256 : Nat) : R) + T * evS T (x / 256) := by
  by_cases h : x = 0
  · subst h
    simp [evS_zero]
  · rw [evS, if_neg h]

theorem evS_one : evS T 1 = 1 := by
  rw [evS_eq]
  simp [evS_zero]

theorem evS_base : evS T 256 = T := by
  rw [evS_eq]
  simp [evS_one]

theorem evS_base_mul (x : Nat) : evS T (256 * x) = T * evS T x := by
  rw [evS_eq]
  simp

theorem digLe_zero (m : Nat) : DigLe m 0 := by
  intro k
  simp

theorem digLe_iff (m x : Nat) : DigLe m x ↔ x % 256 ≤ m ∧ DigLe m (x / 256) := by
  constructor
  · intro h
    refine ⟨by simpa using h 0, fun k => ?_⟩
    have := h (k + 1)
    rwa [pow_succ', ← Nat.div_div_eq_div_mul] at this
  · rintro ⟨h0, h1⟩ k
    cases k with
    | zero => simpa using h0
    | succ k =>
      have := h1 k
      rwa [pow_succ', ← Nat.div_div_eq_div_mul]

theorem digLe_mono {m n x : Nat} (hmn : m ≤ n) (h : DigLe m x) : DigLe n x :=
  fun k => le_trans (h k) hmn

theorem digLe_base_mul {m x : Nat} (h : DigLe m x) : DigLe m (256 * x) := by
  rw [digLe_iff]
  refine ⟨by simp, ?_⟩
  rwa [Nat.mul_div_cancel_left _ (by norm_num : 0 < 256)]

theorem digLe_div_pow {m x : Nat} (h : DigLe m x) (j : Nat) : DigLe m (x / 256 ^ j) := by
  intro k
  rw [Nat.div_div_eq_div_mul, ← pow_add]
  exact h (j + k)

theorem digLe_one (m : Nat) (hm : 1 ≤ m) : DigLe m 1 := by
  rw [digLe_iff]
  refine ⟨by simpa using hm, ?_⟩
  simpa using digLe_zero m

/-- Adding two numbers whose digits cannot carry adds the values. -/
theorem evS_add (m n : Nat) (hmn : m + n < 256) (x y : Nat) (hx : DigLe m x) (hy : DigLe n y) :
    evS T (x + y) = evS T x + evS T y ∧ DigLe (m + n) (x + y) := by
  induction x using Nat.strong_induction_on generalizing y with
  | _ x ih =>
    by_cases hx0 : x = 0
    · subst hx0
      simp only [Nat.zero_add, evS_zero, zero_add, true_and]
      exact digLe_mono (Nat.le_add_left n m) hy
    · obtain ⟨hx1, hx2⟩ := (digLe_iff m x).1 hx
      obtain ⟨hy1, hy2⟩ := (digLe_iff n y).1 hy
      have h0 : (x + y) % 256 = x % 256 + y % 256 := by omega
      have h1 : (x + y) / 256 = x / 256 + y / 256 := by omega
      obtain ⟨e, d⟩ := ih (x / 256) (by omega) (y / 256) hx2 hy2
      constructor
      · rw [evS_eq T (x + y), evS_eq T x, evS_eq T y, h0, h1, e, Nat.cast_add, mul_add]
        abel
      · rw [digLe_iff, h0, h1]
        exact ⟨by omega, d⟩

/-- Product of two numbers with digits `0` and `1`: the digits of the product count
the pairs, and cannot carry while the first factor has fewer than 255 digits. -/
theorem evS_mul (c : Nat) (hc : DigLe 1 c) (n : Nat) (hn : n < 255) :
    ∀ a, a < 256 ^ n → DigLe 1 a → evS T (a * c) = evS T a * evS T c ∧ DigLe n (a * c) := by
  induction n with
  | zero =>
    intro a ha _
    have : a = 0 := by simpa using ha
    subst this
    simp [evS_zero, digLe_zero]
  | succ n ih =>
    intro a ha hd
    obtain ⟨hd0, hd1⟩ := (digLe_iff 1 a).1 hd
    have ha' : a / 256 < 256 ^ n := by
      rw [Nat.div_lt_iff_lt_mul (by norm_num)]
      rwa [pow_succ] at ha
    obtain ⟨e, d⟩ := ih (by omega) (a / 256) ha' hd1
    have hsplit : a * c = a % 256 * c + 256 * (a / 256 * c) := by
      conv_lhs => rw [← Nat.mod_add_div a 256]
      ring
    have hsmall : evS T (a % 256 * c) = ((a % 256 : Nat) : R) * evS T c ∧
        DigLe 1 (a % 256 * c) := by
      have : a % 256 = 0 ∨ a % 256 = 1 := by omega
      rcases this with h | h <;> rw [h] <;> simp [evS_zero, digLe_zero, hc]
    obtain ⟨e2, d2⟩ := evS_add T 1 n (by omega) _ _ hsmall.2 (digLe_base_mul d)
    constructor
    · rw [hsplit, e2, hsmall.1, evS_base_mul, e, evS_eq T a, add_mul, mul_assoc]
    · rw [hsplit, Nat.add_comm n 1]
      exact d2

end Spread

section Mask

variable {R : Type} [Ring R] (T : R)

theorem and_mod_256 (x y : Nat) : (x &&& y) % 256 = (x % 256) &&& (y % 256) := by
  apply Nat.eq_of_testBit_eq
  intro i
  have h : (256 : Nat) = 2 ^ 8 := by norm_num
  rw [h, Nat.testBit_and, Nat.testBit_mod_two_pow, Nat.testBit_mod_two_pow,
    Nat.testBit_mod_two_pow, Nat.testBit_and]
  cases decide (i < 8) <;> simp

theorem and_div_256 (x y : Nat) : (x &&& y) / 256 = (x / 256) &&& (y / 256) := by
  apply Nat.eq_of_testBit_eq
  intro i
  have h : (256 : Nat) = 2 ^ 8 := by norm_num
  rw [h, ← Nat.shiftRight_eq_div_pow, ← Nat.shiftRight_eq_div_pow, ← Nat.shiftRight_eq_div_pow,
    Nat.testBit_and, Nat.testBit_shiftRight, Nat.testBit_shiftRight, Nat.testBit_shiftRight,
    Nat.testBit_and]

theorem xor_mod_256 (x y : Nat) : (x ^^^ y) % 256 = (x % 256) ^^^ (y % 256) := by
  apply Nat.eq_of_testBit_eq
  intro i
  have h : (256 : Nat) = 2 ^ 8 := by norm_num
  rw [h, Nat.testBit_xor, Nat.testBit_mod_two_pow, Nat.testBit_mod_two_pow,
    Nat.testBit_mod_two_pow, Nat.testBit_xor]
  cases decide (i < 8) <;> simp

theorem xor_div_256 (x y : Nat) : (x ^^^ y) / 256 = (x / 256) ^^^ (y / 256) := by
  apply Nat.eq_of_testBit_eq
  intro i
  have h : (256 : Nat) = 2 ^ 8 := by norm_num
  rw [h, ← Nat.shiftRight_eq_div_pow, ← Nat.shiftRight_eq_div_pow, ← Nat.shiftRight_eq_div_pow,
    Nat.testBit_xor, Nat.testBit_shiftRight, Nat.testBit_shiftRight, Nat.testBit_shiftRight,
    Nat.testBit_xor]

theorem maskS_lt (k : Nat) : maskS k < 256 ^ k := by
  induction k with
  | zero => simp [maskS]
  | succ k ih =>
    rw [maskS, pow_succ]
    omega

theorem and_maskS_succ (x k : Nat) :
    (x &&& maskS (k + 1)) % 256 = x % 256 % 2 ∧
    (x &&& maskS (k + 1)) / 256 = (x / 256) &&& maskS k := by
  have hm : maskS (k + 1) % 256 = 1 := by rw [maskS]; omega
  have hd : maskS (k + 1) / 256 = maskS k := by rw [maskS]; omega
  constructor
  · rw [and_mod_256, hm, Nat.and_one_is_mod]
  · rw [and_div_256, hd]

theorem digLe_and_maskS (k : Nat) : ∀ x, DigLe 1 (x &&& maskS k) := by
  induction k with
  | zero =>
    intro x
    simpa [maskS] using digLe_zero 1
  | succ k ih =>
    intro x
    obtain ⟨h0, h1⟩ := and_maskS_succ x k
    rw [digLe_iff, h0, h1]
    exact ⟨by omega, ih _⟩

/-- Masking keeps the parity of every digit, which is all that counts in
characteristic two. -/
theorem evS_and_maskS (h2 : (2 : R) = 0) (k : Nat) :
    ∀ x, x < 256 ^ k → evS T (x &&& maskS k) = evS T x := by
  induction k with
  | zero =>
    intro x hx
    have : x = 0 := by simpa using hx
    subst this
    simp [maskS]
  | succ k ih =>
    intro x hx
    obtain ⟨h0, h1⟩ := and_maskS_succ x k
    have hx' : x / 256 < 256 ^ k := by
      rw [Nat.div_lt_iff_lt_mul (by norm_num)]
      rwa [pow_succ] at hx
    rw [evS_eq T (x &&& maskS (k + 1)), h0, h1, ih _ hx', cast_mod_two h2, ← evS_eq]

theorem evS_xor (h2 : (2 : R) = 0) (x y : Nat) (hx : DigLe 1 x) (hy : DigLe 1 y) :
    evS T (x ^^^ y) = evS T x + evS T y ∧ DigLe 1 (x ^^^ y) := by
  induction x using Nat.strong_induction_on generalizing y with
  | _ x ih =>
    by_cases hx0 : x = 0
    · subst hx0
      simp [evS_zero, hy]
    · obtain ⟨hx1, hx2⟩ := (digLe_iff 1 x).1 hx
      obtain ⟨hy1, hy2⟩ := (digLe_iff 1 y).1 hy
      obtain ⟨e, d⟩ := ih (x / 256) (by omega) (y / 256) hx2 hy2
      have hlow : (x % 256) ^^^ (y % 256) ≤ 1 ∧
          (((x % 256) ^^^ (y % 256) : Nat) : R) = ((x % 256 : Nat) : R) + ((y % 256 : Nat) : R) := by
        have hxc : x % 256 = 0 ∨ x % 256 = 1 := by omega
        have hyc : y % 256 = 0 ∨ y % 256 = 1 := by omega
        rcases hxc with h | h <;> rcases hyc with h' | h' <;> rw [h, h'] <;>
          simp [one_add_one_eq_two, h2]
      constructor
      · rw [evS_eq T (x ^^^ y), xor_mod_256, xor_div_256, e, hlow.2, evS_eq T x, evS_eq T y,
          mul_add]
        abel
      · rw [digLe_iff, xor_mod_256, xor_div_256]
        exact ⟨hlow.1, d⟩

theorem sp_zero : sp 0 = 0 := by
  rw [sp, if_pos rfl]

theorem sp_eq (p : Nat) : sp p = p % 2 + 256 * sp (p / 2) := by
  by_cases h : p = 0
  · subst h
    simp [sp_zero]
  · rw [sp, if_neg h]

theorem spreadAux_eq (f : Nat) : ∀ p w acc, p < 2 ^ f → spreadAux f p w acc = acc + w * sp p := by
  induction f with
  | zero =>
    intro p w acc hp
    have : p = 0 := by simpa using hp
    subst this
    simp [spreadAux, sp_zero]
  | succ f ih =>
    intro p w acc hp
    have hp' : p / 2 < 2 ^ f := by
      rw [Nat.div_lt_iff_lt_mul (by norm_num)]
      rwa [pow_succ] at hp
    rw [spreadAux, force_eq, force_eq, force_eq, ih _ _ _ hp', sp_eq p]
    have : p % 2 = 0 ∨ p % 2 = 1 := by omega
    rcases this with h | h <;> rw [h] <;> simp <;> ring

theorem spread_eq (p : Nat) (hp : p < 2 ^ 130) : spread p = sp p := by
  rw [spread, spreadAux_eq 130 p 1 0 hp]
  simp

theorem sp_spec (p : Nat) : evS T (sp p) = ev T p ∧ DigLe 1 (sp p) := by
  induction p using Nat.strong_induction_on with
  | _ p ih =>
    by_cases hp : p = 0
    · subst hp
      simp [sp_zero, evS_zero, ev_zero, digLe_zero]
    · obtain ⟨e, d⟩ := ih (p / 2) (by omega)
      have h0 : sp p % 256 = p % 2 := by rw [sp_eq p]; omega
      have h1 : sp p / 256 = sp (p / 2) := by rw [sp_eq p]; omega
      constructor
      · rw [evS_eq, h0, h1, e, ← ev_eq]
      · rw [digLe_iff, h0, h1]
        exact ⟨by omega, d⟩

theorem sp_lt (k : Nat) : ∀ p, p < 2 ^ k → sp p < 256 ^ k := by
  induction k with
  | zero =>
    intro p hp
    have : p = 0 := by simpa using hp
    subst this
    simp [sp_zero]
  | succ k ih =>
    intro p hp
    have hp' : p / 2 < 2 ^ k := by
      rw [Nat.div_lt_iff_lt_mul (by norm_num)]
      rwa [pow_succ] at hp
    have := ih _ hp'
    rw [sp_eq p, pow_succ]
    omega

end Mask

section Powers

variable {R : Type} [Ring R] (T : R)

theorem charpoly_lt : CHARPOLY < 2 ^ 129 := by
  unfold CHARPOLY
  norm_num

theorem CS_eq : CS = sp CHARPOLY :=
  spread_eq CHARPOLY (lt_trans charpoly_lt (by norm_num))

theorem CS_lt : CS < 256 ^ 129 := by
  rw [CS_eq]
  exact sp_lt 129 _ charpoly_lt

theorem CS_digLe : DigLe 1 CS := by
  rw [CS_eq]
  exact (sp_spec (1 : ℤ) CHARPOLY).2

theorem evS_CS : evS T CS = ev T CHARPOLY := by
  rw [CS_eq]
  exact (sp_spec T CHARPOLY).1

theorem good_one : Good 1 := by
  refine ⟨digLe_one 1 le_rfl, ?_⟩
  unfold LIMIT
  exact Nat.one_lt_pow (by norm_num) (by norm_num)

theorem good_base : Good 256 := by
  refine ⟨?_, ?_⟩
  · have := digLe_base_mul (digLe_one 1 le_rfl)
    simpa using this
  · unfold LIMIT
    calc 256 = 256 ^ 1 := by norm_num
      _ < 256 ^ 128 := Nat.pow_lt_pow_right (by norm_num) (by norm_num)

/-- A successful `mulmodS` multiplies the values at `T` whenever `CHARPOLY` vanishes
at `T`. -/
theorem mulmodS_ok (h2 : (2 : R) = 0) (h0 : ev T CHARPOLY = 0) (a c r : Nat)
    (ha : Good a) (hc : Good c) (h : mulmodS a c = some r) :
    Good r ∧ evS T r = evS T a * evS T c := by
  unfold mulmodS at h
  simp only [force_eq] at h
  split_ifs at h with hr
  have hr' := Option.some.inj h
  rw [← hr']
  have hac : a * c < 256 ^ 260 := by
    have h1 : a * c < 256 ^ 128 * 256 ^ 128 := Nat.mul_lt_mul'' ha.2 hc.2
    calc a * c < 256 ^ 128 * 256 ^ 128 := h1
      _ ≤ 256 ^ 260 := by norm_num
  have hmask : ∀ x, x < 256 ^ 260 → evS T (x &&& MASK) = evS T x :=
    fun x hx => evS_and_maskS T h2 260 x hx
  have hp : evS T ((a * c) &&& MASK) = evS T a * evS T c := by
    rw [hmask _ hac]
    exact (evS_mul T c hc.1 128 (by norm_num) a ha.2 ha.1).1
  have hpd : DigLe 1 ((a * c) &&& MASK) := digLe_and_maskS 260 _
  have hqd : DigLe 1 (((((a * c) &&& MASK) / LIMIT * MU) &&& MASKQ) / LIMIT) :=
    digLe_div_pow (digLe_and_maskS 256 _) 128
  have hq : ((((a * c) &&& MASK) / LIMIT * MU) &&& MASKQ) / LIMIT < 256 ^ 128 := by
    apply Nat.div_lt_of_lt_mul
    calc ((a * c) &&& MASK) / LIMIT * MU &&& MASKQ ≤ MASKQ := Nat.and_le_right
      _ < 256 ^ 256 := maskS_lt 256
      _ = LIMIT * 256 ^ 128 := by unfold LIMIT; norm_num
  obtain ⟨e1, -⟩ := evS_mul T CS CS_digLe 128 (by norm_num) _ hq hqd
  have hqc : ((((a * c) &&& MASK) / LIMIT * MU) &&& MASKQ) / LIMIT * CS < 256 ^ 260 := by
    calc _ < 256 ^ 128 * 256 ^ 129 := Nat.mul_lt_mul'' hq CS_lt
      _ ≤ 256 ^ 260 := by norm_num
  have e2 : evS T ((((((a * c) &&& MASK) / LIMIT * MU) &&& MASKQ) / LIMIT * CS) &&& MASK) = 0 := by
    rw [hmask _ hqc, e1, evS_CS, h0, mul_zero]
  have hmd : DigLe 1 ((((((a * c) &&& MASK) / LIMIT * MU) &&& MASKQ) / LIMIT * CS) &&& MASK) :=
    digLe_and_maskS 260 _
  obtain ⟨e3, d3⟩ := evS_xor T h2 _ _ hpd hmd
  refine ⟨⟨d3, hr⟩, ?_⟩
  rw [e3, e2, hp, add_zero]

theorem sqIterS_ok (h2 : (2 : R) = 0) (h0 : ev T CHARPOLY = 0) (n : Nat) :
    ∀ a r, Good a → sqIterS n a = some r → Good r ∧ evS T r = evS T a ^ 2 ^ n := by
  induction n with
  | zero =>
    intro a r ha h
    have := Option.some.inj h
    subst this
    exact ⟨ha, by simp⟩
  | succ n ih =>
    intro a r ha h
    rw [sqIterS] at h
    cases hm : mulmodS a a with
    | none => simp [hm] at h
    | some b =>
      simp only [hm, force_eq] at h
      obtain ⟨gb, eb⟩ := mulmodS_ok T h2 h0 a a b ha ha hm
      obtain ⟨gr, er⟩ := ih b r gb h
      refine ⟨gr, ?_⟩
      rw [er, eb, ← pow_two, ← pow_mul, ← pow_succ']

theorem ppowS_ok (h2 : (2 : R) = 0) (h0 : ev T CHARPOLY = 0) (f : Nat) :
    ∀ b e acc r, Good b → Good acc → e < 2 ^ f → ppowS f b e acc = some r →
      Good r ∧ evS T r = evS T acc * evS T b ^ e := by
  induction f with
  | zero =>
    intro b e acc r _ hacc he h
    have he0 : e = 0 := by simpa using he
    have := Option.some.inj h
    subst this he0
    exact ⟨hacc, by simp⟩
  | succ f ih =>
    intro b e acc r hb hacc he h
    rw [ppowS] at h
    have he' : e / 2 < 2 ^ f := by
      rw [Nat.div_lt_iff_lt_mul (by norm_num)]
      rwa [pow_succ] at he
    cases hm1 : (if e % 2 = 1 then mulmodS acc b else some acc) with
    | none => simp [hm1] at h
    | some acc' =>
      cases hm2 : mulmodS b b with
      | none => simp [hm1, hm2] at h
      | some b' =>
        simp only [hm1, hm2, force_eq] at h
        obtain ⟨gb, eb⟩ := mulmodS_ok T h2 h0 b b b' hb hb hm2
        have hacc' : Good acc' ∧ evS T acc' = evS T acc * evS T b ^ (e % 2) := by
          by_cases hodd : e % 2 = 1
          · rw [if_pos hodd] at hm1
            obtain ⟨g1, e1⟩ := mulmodS_ok T h2 h0 acc b acc' hacc hb hm1
            exact ⟨g1, by rw [e1, hodd, pow_one]⟩
          · rw [if_neg hodd] at hm1
            have := Option.some.inj hm1
            subst this
            have : e % 2 = 0 := by omega
            exact ⟨hacc, by rw [this, pow_zero, mul_one]⟩
        obtain ⟨gr, er⟩ := ih b' (e / 2) acc' r gb hacc'.1 he' h
        refine ⟨gr, ?_⟩
        rw [er, hacc'.2, eb, ← pow_two, ← pow_mul, mul_assoc, ← pow_add, Nat.mod_add_div]

theorem xpowS_ok (h2 : (2 : R) = 0) (h0 : ev T CHARPOLY = 0) (e r : Nat) (he : e < 2 ^ 128)
    (h : xpowS e = some r) : Good r ∧ evS T r = T ^ e := by
  obtain ⟨g, ev⟩ := ppowS_ok T h2 h0 128 256 e 1 r good_base good_one he h
  exact ⟨g, by rw [ev, evS_one, evS_base, one_mul]⟩

end Powers

end Poly2

namespace xoroshiro128plus

theorem add_val (a b : WState) : (a + b).1 = sxor a.1 b.1 := rfl

theorem zero_val : (0 : WState).1 = { state0 := 0, state1 := 0 } := rfl

theorem T_val (v : WState) : (T v).1 = step v.1 := rfl

theorem End_mul_apply (f g : AddMonoid.End WState) (v : WState) : (f * g) v = f (g v) := rfl

theorem End_add_apply (f g : AddMonoid.End WState) (v : WState) : (f + g) v = f v + g v := rfl

theorem End_zero_apply (v : WState) : (0 : AddMonoid.End WState) v = 0 := rfl

theorem End_one_apply (v : WState) : (1 : AddMonoid.End WState) v = v := rfl

theorem add_self_W (v : WState) : v + v = 0 := by
  apply Subtype.ext
  rw [add_val, zero_val]
  simp only [sxor, Nat.xor_self]

theorem two_eq_zero_End : (2 : AddMonoid.End WState) = 0 := by
  rw [← one_add_one_eq_two]
  apply AddMonoidHom.ext
  intro v
  exact add_self_W v

theorem T_pow_val (k : Nat) (v : WState) : ((T ^ k) v).1 = step^[k] v.1 := by
  induction k with
  | zero => rfl
  | succ k ih =>
    rw [pow_succ', End_mul_apply, T_val, ih, Function.iterate_succ_apply']

theorem W_self (v : WState) : W v.1.state0 v.1.state1 = v := by
  apply Subtype.ext
  obtain ⟨⟨a, b⟩, ha, hb⟩ := v
  simp only [W, mk.injEq]
  exact ⟨Nat.mod_eq_of_lt ha, Nat.mod_eq_of_lt hb⟩

theorem xor_mod_two_pow (a b n : Nat) : (a ^^^ b) % 2 ^ n = (a % 2 ^ n) ^^^ (b % 2 ^ n) := by
  apply Nat.eq_of_testBit_eq
  intro i
  simp only [Nat.testBit_xor, Nat.testBit_mod_two_pow]
  cases decide (i < n) <;> simp

theorem W_xor (a b c d : Nat) : W (a ^^^ c) (b ^^^ d) = W a b + W c d := by
  apply Subtype.ext
  rw [add_val]
  simp only [W, sxor, mk.injEq]
  exact ⟨xor_mod_two_pow a c 64, xor_mod_two_pow b d 64⟩

theorem W_zero : W 0 0 = 0 := by
  apply Subtype.ext
  rfl

/-- The Horner loop computes `T^i a + p(T) g` for the low `i` bits of `p`. -/
theorem polyLoop_spec (p : Nat) (g : WState) (i : Nat) : ∀ a : WState,
    polyLoop p g.1.state0 g.1.state1 i a.1.state0 a.1.state1 =
      ((((T ^ i) a + (Poly2.ev T (p % 2 ^ i)) g).1.state0),
       (((T ^ i) a + (Poly2.ev T (p % 2 ^ i)) g).1.state1)) := by
  induction i with
  | zero =>
    intro a
    simp only [polyLoop, pow_zero, Nat.mod_one, Poly2.ev_zero, End_one_apply, End_zero_apply,
      add_zero]
  | succ i ih =>
    intro a
    rw [polyLoop, Poly2.force_eq, Poly2.force_eq]
    have hb : ∀ b : WState, b = T a + (if p.testBit i then g else 0) →
        polyLoop p g.1.state0 g.1.state1 i b.1.state0 b.1.state1 =
          ((((T ^ (i + 1)) a + (Poly2.ev T (p % 2 ^ (i + 1))) g).1.state0),
           (((T ^ (i + 1)) a + (Poly2.ev T (p % 2 ^ (i + 1))) g).1.state1)) := by
      intro b hb
      rw [ih b, hb, Poly2.ev_mod_succ T two_eq_zero_End, pow_succ, End_mul_apply,
        map_add, End_add_apply]
      by_cases hbit : p.testBit i = true
      · simp only [hbit, if_true]
        rw [add_assoc, add_comm ((T ^ i) g)]
      · simp only [hbit, if_false, Bool.false_eq_true, map_zero, add_zero, End_zero_apply]
    have key := hb (T a + (if p.testBit i then g else 0)) rfl
    rw [← key]
    by_cases hbit : p.testBit i = true
    · simp only [hbit, if_true]
      rfl
    · simp only [hbit, if_false, Bool.false_eq_true, add_zero, Nat.xor_zero]
      rfl

theorem annihilates_sound (g : WState) (h : annihilates CHARPOLY g.1.state0 g.1.state1 = true) :
    (Poly2.ev T CHARPOLY) g = 0 := by
  unfold annihilates at h
  have h' := of_decide_eq_true h
  have hs := polyLoop_spec CHARPOLY g 129 0
  rw [zero_val] at hs
  rw [hs, Nat.mod_eq_of_lt Poly2.charpoly_lt, map_zero, zero_add] at h'
  apply Subtype.ext
  rw [zero_val]
  cases hv : ((Poly2.ev T CHARPOLY) g).1 with
  | mk s0 s1 =>
    rw [hv] at h'
    simp only [Prod.mk.injEq] at h'
    rw [h'.1, h'.2]

end xoroshiro128plus

namespace xoroshiro128plus

theorem basisCheck_true : basisCheck = true := by decide!

theorem W_pow_state (j : Nat) (hj : j < 64) :
    (W (2 ^ j) 0).1.state0 = 2 ^ j ∧ (W (2 ^ j) 0).1.state1 = 0 ∧
    (W 0 (2 ^ j)).1.state0 = 0 ∧ (W 0 (2 ^ j)).1.state1 = 2 ^ j := by
  have h : 2 ^ j < 2 ^ 64 := Nat.pow_lt_pow_right (by norm_num) hj
  simp only [W, Nat.mod_eq_of_lt h, Nat.zero_mod, and_self]

theorem charpoly_basis (j : Nat) (hj : j < 64) :
    (Poly2.ev T CHARPOLY) (W (2 ^ j) 0) = 0 ∧ (Poly2.ev T CHARPOLY) (W 0 (2 ^ j)) = 0 := by
  have h := basisCheck_true
  unfold basisCheck at h
  rw [List.all_eq_true] at h
  have hj' := h j (List.mem_range.2 hj)
  rw [Bool.and_eq_true] at hj'
  obtain ⟨e0, e1, e2, e3⟩ := W_pow_state j hj
  constructor
  · apply annihilates_sound
    rw [e0, e1]
    exact hj'.1
  · apply annihilates_sound
    rw [e2, e3]
    exact hj'.2

theorem charpoly_low (n : Nat) (hn : n ≤ 64) : ∀ a,
    (Poly2.ev T CHARPOLY) (W (a % 2 ^ n) 0) = 0 ∧ (Poly2.ev T CHARPOLY) (W 0 (a % 2 ^ n)) = 0 := by
  induction n with
  | zero =>
    intro a
    simp only [pow_zero, Nat.mod_one, W_zero, map_zero, and_self]
  | succ n ih =>
    intro a
    obtain ⟨i0, i1⟩ := ih (by omega) a
    obtain ⟨b0, b1⟩ := charpoly_basis n (by omega)
    have h0 : W (a % 2 ^ (n + 1)) 0 = W (a % 2 ^ n) 0 + W (if a.testBit n then 2 ^ n else 0) 0 := by
      rw [← W_xor, Nat.xor_zero, ← Poly2.mod_two_pow_succ_xor]
    have h1 : W 0 (a % 2 ^ (n + 1)) = W 0 (a % 2 ^ n) + W 0 (if a.testBit n then 2 ^ n else 0) := by
      rw [← W_xor, Nat.xor_zero, ← Poly2.mod_two_pow_succ_xor]
    rw [h0, h1, map_add, map_add, i0, i1]
    by_cases hb : a.testBit n = true
    · simp only [hb, if_true, b0, b1, add_zero, and_self]
    · simp only [hb, if_false, Bool.false_eq_true, W_zero, map_zero, add_zero, and_self]

/-- The characteristic polynomial vanishes at the state transition. -/
theorem charpoly_annihilates : Poly2.ev T CHARPOLY = 0 := by
  apply AddMonoidHom.ext
  intro v
  have hv : v = W (v.1.state0 % 2 ^ 64) 0 + W 0 (v.1.state1 % 2 ^ 64) := by
    rw [← W_xor, Nat.xor_zero, Nat.zero_xor, Nat.mod_eq_of_lt v.2.1, Nat.mod_eq_of_lt v.2.2,
      W_self]
  rw [hv, map_add, (charpoly_low 64 le_rfl _).1, (charpoly_low 64 le_rfl _).2, add_zero]
  rfl

theorem and_one_shiftLeft_ne_zero (w b : Nat) : w &&& (1 <<< b) ≠ 0 ↔ w.testBit b = true := by
  rw [Nat.one_shiftLeft, Nat.and_two_pow]
  cases w.testBit b <;> simp

theorem jumpBit_spec (w : Nat) (a g : WState) (b : Nat) :
    jumpBit w (a.1.state0, a.1.state1, g.1) b =
      ((a + (if w.testBit b then g else 0)).1.state0,
       (a + (if w.testBit b then g else 0)).1.state1, (T g).1) := by
  unfold jumpBit
  by_cases hb : w.testBit b = true
  · rw [if_pos ((and_one_shiftLeft_ne_zero w b).2 hb), if_pos hb]
    rfl
  · rw [if_neg (fun h => hb ((and_one_shiftLeft_ne_zero w b).1 h)), if_neg hb, add_zero]
    rfl

/-- After the first `n` bits of the word `w`, the accumulator has gained `p(T) g` for
the low `n` bits `p` of `w`, and the object has been stepped `n` times. -/
theorem jumpWord_fold (w : Nat) (a g : WState) (n : Nat) :
    (List.range n).foldl (jumpBit w) (a.1.state0, a.1.state1, g.1) =
      ((a + (Poly2.ev T (w % 2 ^ n)) g).1.state0,
       (a + (Poly2.ev T (w % 2 ^ n)) g).1.state1, ((T ^ n) g).1) := by
  induction n with
  | zero =>
    simp only [List.range_zero, List.foldl_nil, pow_zero, Nat.mod_one, Poly2.ev_zero,
      End_zero_apply, add_zero, End_one_apply]
  | succ n ih =>
    rw [List.range_succ, List.foldl_append, ih, List.foldl_cons, List.foldl_nil, jumpBit_spec,
      Poly2.ev_mod_succ T two_eq_zero_End, End_add_apply, pow_succ', End_mul_apply]
    by_cases hb : w.testBit n = true
    · simp only [hb, if_true, add_assoc]
    · simp only [hb, if_false, Bool.false_eq_true, End_zero_apply, add_zero]

/-- The state left by `jump()` is the image of the state under the jump polynomial
evaluated at the state transition. -/
theorem jump_eq_ev (g : WState) : jump g.1 = ((Poly2.ev T JUMPPOLY) g).1 := by
  have h1 := jumpWord_fold 0xbeac0467eba5facb 0 g 64
  have h2 := jumpWord_fold 0xd86b048b86aa9922 ((Poly2.ev T 0xbeac0467eba5facb) g) ((T ^ 64) g) 64
  have hp : JUMPPOLY = 0xbeac0467eba5facb ^^^ (0xd86b048b86aa9922 <<< 64) := by decide
  have hc : Poly2.ev T 0xd86b048b86aa9922 * T ^ 64 = T ^ 64 * Poly2.ev T 0xd86b048b86aa9922 :=
    ((Poly2.ev_commute T _).pow_left 64).eq.symm
  rw [zero_add, Nat.mod_eq_of_lt (by norm_num)] at h1
  rw [Nat.mod_eq_of_lt (by norm_num), ← End_mul_apply, hc, ← End_add_apply,
    ← Poly2.ev_shiftLeft, ← Poly2.ev_xor T two_eq_zero_End, ← hp] at h2
  unfold jump JUMP
  rw [List.foldl_cons, List.foldl_cons, List.foldl_nil]
  unfold jumpWord
  rw [zero_val] at h1
  rw [h1, h2]

theorem jump_cert : Poly2.sqIterS 64 256 = some (Poly2.spread JUMPPOLY) := by decide!

theorem ev_jumppoly : Poly2.ev T JUMPPOLY = T ^ 2 ^ 64 := by
  obtain ⟨-, e⟩ := Poly2.sqIterS_ok T two_eq_zero_End charpoly_annihilates 64 256 _
    Poly2.good_base jump_cert
  rw [Poly2.evS_base, Poly2.spread_eq _ (by unfold JUMPPOLY; norm_num),
    (Poly2.sp_spec T JUMPPOLY).1] at e
  exact e

/-- C3: for every state of 64-bit words, the state left by `jump()` is the state
reached by `2^64` successive calls of `operator()`. -/
theorem jump_eq_iterate (g : xoroshiro128plus) (h : g.WF) : jump g = step^[2 ^ 64] g := by
  have e := jump_eq_ev ⟨g, h⟩
  rw [ev_jumppoly, T_pow_val] at e
  exact e

theorem jump_eq_iterate_witness :
    jump { state0 := 1, state1 := 2 } = step^[2 ^ 64] { state0 := 1, state1 := 2 } :=
  jump_eq_iterate { state0 := 1, state1 := 2 } (by decide)

end xoroshiro128plus

namespace Poly2

theorem npowmod_spec (m : Nat) (f : Nat) : ∀ a e acc, e < 2 ^ f →
    npowmod f a e m acc ≡ acc * a ^ e [MOD m] := by
  induction f with
  | zero =>
    intro a e acc he
    have : e = 0 := by simpa using he
    subst this
    simp [npowmod, Nat.ModEq]
  | succ f ih =>
    intro a e acc he
    have he' : e / 2 < 2 ^ f := by
      rw [Nat.div_lt_iff_lt_mul (by norm_num)]
      rwa [pow_succ] at he
    rw [npowmod, force_eq, force_eq, force_eq]
    refine (ih _ _ _ he').trans ?_
    have hsq : (a * a % m) ^ (e / 2) ≡ a ^ (2 * (e / 2)) [MOD m] := by
      rw [pow_mul, pow_two]
      exact (Nat.mod_modEq _ _).pow _
    have hacc : (if e % 2 = 1 then acc * a % m else acc) ≡ acc * a ^ (e % 2) [MOD m] := by
      by_cases h : e % 2 = 1
      · rw [if_pos h, h, pow_one]
        exact Nat.mod_modEq _ _
      · have h0 : e % 2 = 0 := by omega
        rw [if_neg h, h0, pow_zero, mul_one]
    calc (if e % 2 = 1 then acc * a % m else acc) * (a * a % m) ^ (e / 2)
        ≡ acc * a ^ (e % 2) * a ^ (2 * (e / 2)) [MOD m] := hacc.mul hsq
      _ = acc * a ^ e := by rw [mul_assoc, ← pow_add, Nat.mod_add_div]

theorem zmod_pow_eq_one (p a e : Nat) (he : e < 2 ^ 64) (h : npowmod 64 a e p 1 % p = 1 % p) :
    ((a : ZMod p)) ^ e = 1 := by
  have h1 := npowmod_spec p 64 a e 1 he
  rw [one_mul] at h1
  have h2 : a ^ e % p = 1 % p := by rw [← h1, h]
  have h3 := (ZMod.natCast_eq_natCast_iff' (a ^ e) 1 p).2 h2
  simpa using h3

theorem zmod_pow_ne_one (p a e : Nat) (he : e < 2 ^ 64) (h : npowmod 64 a e p 1 % p ≠ 1 % p) :
    ((a : ZMod p)) ^ e ≠ 1 := by
  intro hc
  apply h
  have h1 := npowmod_spec p 64 a e 1 he
  rw [one_mul] at h1
  rw [h1]
  have h3 : ((a ^ e : ℕ) : ZMod p) = ((1 : ℕ) : ZMod p) := by simpa using hc
  exact (ZMod.natCast_eq_natCast_iff' (a ^ e) 1 p).1 h3

theorem prime_mem_of_dvd_prod (l : List Nat) (hl : ∀ x ∈ l, Nat.Prime x) (q : Nat)
    (hq : Nat.Prime q) (h : q ∣ l.prod) : q ∈ l := by
  obtain ⟨a, ha, hqa⟩ := (Prime.dvd_prod_iff hq.prime).1 h
  have := (Nat.prime_dvd_prime_iff_eq hq (hl a ha)).1 hqa
  rwa [this]

theorem prime_2998279 : Nat.Prime 2998279 := by norm_num

theorem prime_67280421310721 : Nat.Prime 67280421310721 := by
  have hfac : (67280421310721 - 1 : Nat) = [2, 2, 2, 2, 2, 2, 2, 2, 5, 47, 373, 2998279].prod := by
    norm_num
  apply lucas_primality 67280421310721 ((3 : ℕ) : ZMod 67280421310721)
  · exact zmod_pow_eq_one _ 3 _ (by norm_num) (by decide!)
  · intro q hq hd
    rw [hfac] at hd
    have hmem := prime_mem_of_dvd_prod _ (by
      intro x hx
      simp only [List.mem_cons, List.mem_singleton, List.not_mem_nil, or_false] at hx
      rcases hx with h | h | h | h | h | h | h | h | h | h | h | h <;> rw [h] <;>
        first | exact prime_2998279 | norm_num) q hq hd
    simp only [List.mem_cons, List.mem_singleton, List.not_mem_nil, or_false] at hmem
    rcases hmem with h | h | h | h | h | h | h | h | h | h | h | h <;> rw [h] <;>
      exact zmod_pow_ne_one _ 3 _ (by norm_num) (by decide!)

theorem primes_of_period : ∀ x ∈ periodPrimes, Nat.Prime x := by
  intro x hx
  unfold periodPrimes at hx
  simp only [List.mem_cons, List.mem_singleton, List.not_mem_nil, or_false] at hx
  rcases hx with h | h | h | h | h | h | h | h | h <;> rw [h] <;>
    first | exact prime_67280421310721 | norm_num

theorem period_factorization : 2 ^ 128 - 1 = periodPrimes.prod := by
  unfold periodPrimes
  norm_num

/-- A proper divisor of `2^128 - 1` divides one of the maximal quotients. -/
theorem proper_divisor (d : Nat) (hd : d ∣ 2 ^ 128 - 1) (hlt : d < 2 ^ 128 - 1) :
    ∃ q ∈ periodPrimes, d ∣ (2 ^ 128 - 1) / q := by
  obtain ⟨m, hm⟩ := hd
  have hm1 : m ≠ 1 := by
    rintro rfl
    omega
  obtain ⟨p, hp, hpm⟩ := Nat.exists_prime_and_dvd hm1
  obtain ⟨m', hm'⟩ := hpm
  have hpN : p ∣ periodPrimes.prod := by
    rw [← period_factorization, hm, hm']
    exact ⟨d * m', by ring⟩
  refine ⟨p, prime_mem_of_dvd_prod _ primes_of_period p hp hpN, ?_⟩
  have : (2 ^ 128 - 1) / p = d * m' := by
    rw [hm, hm']
    have : d * (p * m') = d * m' * p := by ring
    rw [this, Nat.mul_div_cancel _ hp.pos]
  rw [this]
  exact ⟨m', rfl⟩

end Poly2

namespace xoroshiro128plus

theorem T_pow_apply (k : Nat) (v : WState) : (T ^ k) v = (⇑T)^[k] v := by
  rw [AddMonoid.End.coe_pow]

theorem period_cert : Poly2.xpowS (2 ^ 128 - 1) = some 1 := by decide!

theorem periodCerts_ok :
    Poly2.periodCerts.all (fun qb => Poly2.certOk qb.1 qb.2) = true := by decide!

theorem periodCerts_primes : Poly2.periodCerts.map Prod.fst = Poly2.periodPrimes := by decide

/-- The state transition has order dividing `2^128 - 1`. -/
theorem T_pow_period : T ^ (2 ^ 128 - 1) = 1 := by
  obtain ⟨-, e⟩ := Poly2.xpowS_ok T two_eq_zero_End charpoly_annihilates (2 ^ 128 - 1) 1
    (by norm_num) period_cert
  rw [Poly2.evS_one] at e
  exact e.symm

theorem limit_eq : Poly2.LIMIT = 2 ^ 1024 := by
  unfold Poly2.LIMIT
  rw [show (256 : Nat) = 2 ^ 8 by norm_num, ← pow_mul]

set_option exponentiation.threshold 2048 in
theorem cert_sound (q b : Nat) (h : Poly2.certOk q b = true) :
    ∃ B : AddMonoid.End WState, B * (T ^ ((2 ^ 128 - 1) / q) + 1) = 1 := by
  unfold Poly2.certOk at h
  rw [Bool.and_eq_true] at h
  obtain ⟨hb, hm⟩ := h
  have hb' : b < 2 ^ 128 := of_decide_eq_true hb
  cases hx : Poly2.xpowS ((2 ^ 128 - 1) / q) with
  | none =>
    rw [hx] at hm
    exact absurd hm Bool.false_ne_true
  | some y =>
    rw [hx] at hm
    have hm' : (Poly2.force y fun y' =>
        decide (Poly2.mulmodS (Poly2.spread b) (y' ^^^ 1) = some 1)) = true := hm
    rw [Poly2.force_eq] at hm'
    have hmul := of_decide_eq_true hm'
    have he : (2 ^ 128 - 1) / q < 2 ^ 128 :=
      lt_of_le_of_lt (Nat.div_le_self _ _) (by norm_num)
    obtain ⟨gy, ey⟩ := Poly2.xpowS_ok T two_eq_zero_End charpoly_annihilates _ y he hx
    obtain ⟨ex, dx⟩ := Poly2.evS_xor T two_eq_zero_End y 1 gy.1 (Poly2.digLe_one 1 le_rfl)
    have gx : Poly2.Good (y ^^^ 1) := by
      have hy := gy.2
      rw [limit_eq] at hy
      refine ⟨dx, ?_⟩
      rw [limit_eq]
      exact @Nat.xor_lt_two_pow y 1 1024 hy (@Nat.one_lt_two_pow 1024 (by decide))
    have gb : Poly2.Good (Poly2.spread b) := by
      rw [Poly2.spread_eq b (lt_trans hb' (by norm_num))]
      exact ⟨(Poly2.sp_spec T b).2, Poly2.sp_lt 128 b hb'⟩
    obtain ⟨-, e1⟩ := Poly2.mulmodS_ok T two_eq_zero_End charpoly_annihilates _ _ 1 gb gx hmul
    refine ⟨Poly2.evS T (Poly2.spread b), ?_⟩
    rw [← ey, ← Poly2.evS_one T, ← ex, ← e1]

/-- A state fixed by `(2^128-1)/q` transitions, `q` a prime factor, is the zero state. -/
theorem fixed_is_zero (q : Nat) (hq : q ∈ Poly2.periodPrimes) (v : WState)
    (h : (T ^ ((2 ^ 128 - 1) / q)) v = v) : v = 0 := by
  rw [← periodCerts_primes, List.mem_map] at hq
  obtain ⟨⟨q', b⟩, hmem, hq'⟩ := hq
  simp only at hq'
  subst hq'
  have hok := (List.all_eq_true.1 periodCerts_ok) _ hmem
  obtain ⟨B, hB⟩ := cert_sound q' b hok
  have h1 : (B * (T ^ ((2 ^ 128 - 1) / q') + 1) : AddMonoid.End WState) v = v := by
    rw [hB, End_one_apply]
  rw [End_mul_apply, End_add_apply, End_one_apply, h, add_self_W, map_zero] at h1
  exact h1.symm

/-- No non-zero state returns to itself in fewer than `2^128 - 1` transitions. -/
theorem no_early_return (v : WState) (hv : v ≠ 0) (k : Nat) (hk : 0 < k) (hk' : k < 2 ^ 128 - 1) :
    (T ^ k) v ≠ v := by
  intro h
  have p1 : Function.IsPeriodicPt (⇑T) k v := by
    rw [T_pow_apply] at h
    exact h
  have p2 : Function.IsPeriodicPt (⇑T) (2 ^ 128 - 1) v := by
    show (⇑T)^[2 ^ 128 - 1] v = v
    rw [← T_pow_apply, T_pow_period, End_one_apply]
  have p3 := p1.gcd p2
  have hd : Nat.gcd k (2 ^ 128 - 1) < 2 ^ 128 - 1 := lt_of_le_of_lt (Nat.gcd_le_left _ hk) hk'
  obtain ⟨q, hq, hdq⟩ := Poly2.proper_divisor _ (Nat.gcd_dvd_right k (2 ^ 128 - 1)) hd
  have p4 : (⇑T)^[(2 ^ 128 - 1) / q] v = v := p3.trans_dvd hdq
  rw [← T_pow_apply] at p4
  exact hv (fixed_is_zero q hq v p4)

theorem orbit_injective (v : WState) (hv : v ≠ 0) (i j : Nat) (hij : i < j)
    (hj : j < 2 ^ 128 - 1) : (T ^ i) v ≠ (T ^ j) v := by
  intro h
  have h1 : (T ^ (2 ^ 128 - 1 - j + i)) v = v := by
    rw [pow_add, End_mul_apply, h, ← End_mul_apply, ← pow_add,
      Nat.sub_add_cancel (le_of_lt hj), T_pow_period, End_one_apply]
  exact no_early_return v hv _ (by omega) (by omega) h1

theorem orbit_ne_zero (v : WState) (hv : v ≠ 0) (k : Nat) (hk : k < 2 ^ 128 - 1) :
    (T ^ k) v ≠ 0 := by
  intro h
  apply hv
  have h1 : (T ^ (2 ^ 128 - 1 - k + k)) v = v := by
    rw [Nat.sub_add_cancel (le_of_lt hk), T_pow_period, End_one_apply]
  rw [pow_add, End_mul_apply, h, map_zero] at h1
  exact h1.symm

/-- The orbit of a non-zero state under the transition is the set of all non-zero
states: there are `2^128 - 1` of them and the orbit has as many distinct members. -/
theorem orbit_surjective (v : WState) (hv : v ≠ 0) (w : WState) (hw : w ≠ 0) :
    ∃ k, k < 2 ^ 128 - 1 ∧ (T ^ k) v = w := by
  classical
  letI : Fintype WState := Fintype.ofEquiv _ wstateEquiv.symm
  have hcard : Fintype.card WState = 2 ^ 64 * 2 ^ 64 := by
    rw [Fintype.ofEquiv_card wstateEquiv.symm, Fintype.card_prod, Fintype.card_fin]
  let f : Option (Fin (2 ^ 128 - 1)) → WState := fun o =>
    match o with
    | none => 0
    | some k => (T ^ k.1) v
  have hinj : Function.Injective f := by
    intro a b hab
    cases a with
    | none =>
      cases b with
      | none => rfl
      | some j => exact absurd hab.symm (orbit_ne_zero v hv j.1 j.2)
    | some i =>
      cases b with
      | none => exact absurd hab (orbit_ne_zero v hv i.1 i.2)
      | some j =>
        have hij : i.1 = j.1 := by
          rcases Nat.lt_trichotomy i.1 j.1 with h | h | h
          · exact absurd hab (orbit_injective v hv i.1 j.1 h j.2)
          · exact h
          · exact absurd hab.symm (orbit_injective v hv j.1 i.1 h i.2)
        exact congrArg some (Fin.ext hij)
  have hc : Fintype.card (Option (Fin (2 ^ 128 - 1))) = Fintype.card WState := by
    rw [Fintype.card_option, Fintype.card_fin, hcard]
    norm_num
  obtain ⟨o, ho⟩ := ((Fintype.bijective_iff_injective_and_card f).2 ⟨hinj, hc⟩).2 w
  cases o with
  | none => exact absurd ho.symm hw
  | some k => exact ⟨k.1, k.2, ho⟩

theorem ne_zero_of_ne (g : xoroshiro128plus) (h : g.WF) (hnz : g ≠ { state0 := 0, state1 := 0 }) :
    ofWF g h ≠ 0 := by
  intro hc
  exact hnz (congrArg Subtype.val hc)

/-- C9: the period is `2^128 - 1`: from every non-zero state of 64-bit words the state
after `2^128 - 1` calls is the initial state, the state after `k` calls differs from it
for `0 < k < 2^128 - 1`, the states along the cycle are pairwise different, and every
non-zero state occurs on the cycle. -/
theorem period_full (g : xoroshiro128plus) (h : g.WF) (hnz : g ≠ { state0 := 0, state1 := 0 }) :
    step^[2 ^ 128 - 1] g = g ∧
    (∀ k, 0 < k → k < 2 ^ 128 - 1 → step^[k] g ≠ g) ∧
    (∀ i j, i < j → j < 2 ^ 128 - 1 → step^[i] g ≠ step^[j] g) ∧
    (∀ g' : xoroshiro128plus, g'.WF → g' ≠ { state0 := 0, state1 := 0 } →
      ∃ k, k < 2 ^ 128 - 1 ∧ step^[k] g = g') := by
  have hv := ne_zero_of_ne g h hnz
  refine ⟨?_, ?_, ?_, ?_⟩
  · have e := T_pow_val (2 ^ 128 - 1) (ofWF g h)
    rw [T_pow_period, End_one_apply] at e
    exact e.symm
  · intro k hk hk' hc
    apply no_early_return (ofWF g h) hv k hk hk'
    apply Subtype.ext
    rw [T_pow_val]
    exact hc
  · intro i j hij hj hc
    apply orbit_injective (ofWF g h) hv i j hij hj
    apply Subtype.ext
    rw [T_pow_val, T_pow_val]
    exact hc
  · intro g' h' hnz'
    obtain ⟨k, hk, e⟩ := orbit_surjective (ofWF g h) hv (ofWF g' h') (ne_zero_of_ne g' h' hnz')
    have e2 := T_pow_val k (ofWF g h)
    rw [e] at e2
    exact ⟨k, hk, e2.symm⟩

theorem period_full_witness :
    step^[2 ^ 128 - 1] { state0 := 1, state1 := 2 } = { state0 := 1, state1 := 2 } ∧
    (∀ k, 0 < k → k < 2 ^ 128 - 1 →
      step^[k] { state0 := 1, state1 := 2 } ≠ { state0 := 1, state1 := 2 }) ∧
    (∀ i j, i < j → j < 2 ^ 128 - 1 →
      step^[i] { state0 := 1, state1 := 2 } ≠ step^[j] { state0 := 1, state1 := 2 }) ∧
    (∀ g' : xoroshiro128plus, g'.WF → g' ≠ { state0 := 0, state1 := 0 } →
      ∃ k, k < 2 ^ 128 - 1 ∧ step^[k] { state0 := 1, state1 := 2 } = g') :=
  period_full { state0 := 1, state1 := 2 } (by decide) (by decide)

end xoroshiro128plus

namespace xoroshiro128plus

/-- C11: for every seed sequence that supplies the 32-bit words `w0, w1, w2, w3` in that
order, whatever the buffer held, `seed(sequence)` passes a buffer of exactly 4 words and
leaves `(s0, s1) = (w0 + 2^32 * w1, w2 + 2^32 * w3)` (little-endian view of the state),
from every previous state. -/
theorem seedSeq_words {σ : Type} (gen : List Nat → σ → List Nat × σ) (s : σ)
    (g : xoroshiro128plus) (w0 w1 w2 w3 : Nat) (h0 : w0 < 2 ^ 32) (h1 : w1 < 2 ^ 32)
    (h2 : w2 < 2 ^ 32) (h3 : w3 < 2 ^ 32)
    (hgen : ∀ buf : List Nat, buf.length = 4 → (gen buf s).1 = [w0, w1, w2, w3]) :
    (toWords g).length = 4 ∧
    (seedSeq gen g s).1 = { state0 := w0 + 2 ^ 32 * w1, state1 := w2 + 2 ^ 32 * w3 } ∧
    (seedSeq gen g s).2 = (gen (toWords g) s).2 := by
  refine ⟨rfl, ?_, rfl⟩
  simp only [seedSeq, hgen (toWords g) rfl, ofWords, List.getD_cons_zero, List.getD_cons_succ,
    Nat.mod_eq_of_lt h0, Nat.mod_eq_of_lt h1, Nat.mod_eq_of_lt h2, Nat.mod_eq_of_lt h3]

theorem seedSeq_words_witness :
    (toWords { state0 := 5, state1 := 6 }).length = 4 ∧
    (seedSeq (fun (_ : List Nat) (u : Unit) => ([1, 2, 3, 4], u))
        { state0 := 5, state1 := 6 } ()).1 =
      { state0 := 1 + 2 ^ 32 * 2, state1 := 3 + 2 ^ 32 * 4 } ∧
    (seedSeq (fun (_ : List Nat) (u : Unit) => ([1, 2, 3, 4], u))
        { state0 := 5, state1 := 6 } ()).2 =
      ((fun (_ : List Nat) (u : Unit) => ([1, 2, 3, 4], u))
        (toWords { state0 := 5, state1 := 6 }) ()).2 :=
  seedSeq_words (fun (_ : List Nat) (u : Unit) => ([1, 2, 3, 4], u)) ()
    { state0 := 5, state1 := 6 } 1 2 3 4
    (by norm_num) (by norm_num) (by norm_num) (by norm_num) (fun _ _ => rfl)

end xoroshiro128plus

namespace splitmix64

theorem sm_seedSeq_splitmix (a r : splitmix64) :
    seedSeq generate a r = ({ state := (next r).1 }, (next r).2) := by
  simp only [seedSeq, generate, toWords, List.length_cons, List.length_nil, generateLoop,
    ofWords, List.set_cons_zero, List.set_cons_succ, List.getD_cons_zero, List.getD_cons_succ,
    xoroshiro128plus.join_halves _ (next_lt _)]

/-- C12: for every seed sequence that supplies the 32-bit words `w0, w1` in that order,
whatever the buffer held, `seed(sequence)` passes a buffer of exactly 2 words and sets
the state to `w0 + 2^32 * w1` (little-endian view of the state), from every previous
state; when the sequence is a `splitmix64` object `r`, the seeded state is the value
returned by one call on `r`, and `r` is left advanced by exactly that one call. -/
theorem sm_seedSeq_words {σ : Type} (gen : List Nat → σ → List Nat × σ) (s : σ)
    (g : splitmix64) (w0 w1 : Nat) (h0 : w0 < 2 ^ 32) (h1 : w1 < 2 ^ 32)
    (hgen : ∀ buf : List Nat, buf.length = 2 → (gen buf s).1 = [w0, w1]) :
    ((toWords g).length = 2 ∧
      (seedSeq gen g s).1 = { state := w0 + 2 ^ 32 * w1 } ∧
      (seedSeq gen g s).2 = (gen (toWords g) s).2) ∧
    (∀ a r : splitmix64, (seedSeq generate a r).1 = { state := (next r).1 } ∧
      (seedSeq generate a r).2 = step r ∧ (seedSeq generate a r).2 = step^[1] r) := by
  constructor
  · refine ⟨rfl, ?_, rfl⟩
    simp only [seedSeq, hgen (toWords g) rfl, ofWords, List.getD_cons_zero, List.getD_cons_succ,
      Nat.mod_eq_of_lt h0, Nat.mod_eq_of_lt h1]
  · intro a r
    rw [sm_seedSeq_splitmix]
    exact ⟨rfl, rfl, rfl⟩

theorem sm_seedSeq_words_witness :
    ((toWords { state := 5 }).length = 2 ∧
      (seedSeq (fun (_ : List Nat) (u : Unit) => ([1, 2], u)) { state := 5 } ()).1 =
        { state := 1 + 2 ^ 32 * 2 } ∧
      (seedSeq (fun (_ : List Nat) (u : Unit) => ([1, 2], u)) { state := 5 } ()).2 =
        ((fun (_ : List Nat) (u : Unit) => ([1, 2], u)) (toWords { state := 5 }) ()).2) ∧
    (∀ a r : splitmix64, (seedSeq generate a r).1 = { state := (next r).1 } ∧
      (seedSeq generate a r).2 = step r ∧ (seedSeq generate a r).2 = step^[1] r) :=
  sm_seedSeq_words (fun (_ : List Nat) (u : Unit) => ([1, 2], u)) () { state := 5 } 1 2
    (by norm_num) (by norm_num) (fun _ _ => rfl)

theorem sm_discardLoop_self (g : splitmix64) (j : Nat) : discardLoop j j g = g := by
  rw [discardLoop, if_neg (Nat.lt_irrefl j)]

end splitmix64

namespace xoroshiro128plus

/-- C14: in both classes, for every state and every `n`, the loop of `discard(n)` is
entered with its counter equal to its bound, so its body is not executed and the state
is unchanged; a call after `discard(n)` returns what a call without it returns. -/
theorem discard_noop :
    (∀ (g : splitmix64) (n : Nat), ¬ (n < n) ∧ splitmix64.discard g n = g ∧
      (splitmix64.next (splitmix64.discard g n)).1 = (splitmix64.next g).1) ∧
    (∀ (g : xoroshiro128plus) (n : Nat), ¬ (n < n) ∧ discard g n = g ∧
      (next (discard g n)).1 = (next g).1) := by
  constructor
  · intro g n
    have h : splitmix64.discard g n = g := splitmix64.sm_discardLoop_self g n
    exact ⟨Nat.lt_irrefl n, h, by rw [h]⟩
  · intro g n
    have h : discard g n = g := discardLoop_self g n
    exact ⟨Nat.lt_irrefl n, h, by rw [h]⟩

end xoroshiro128plus

namespace splitmix64

theorem generateLoop_state (n : Nat) : ∀ (it : Nat) (buf : List Nat) (g : splitmix64),
    (generateLoop n it buf g).2 = step^[(n + 1) / 2] g := by
  induction n using Nat.strong_induction_on with
  | _ n ih =>
    intro it buf g
    match n, ih with
    | 0, _ => rfl
    | 1, _ => rfl
    | n + 2, ih =>
      simp only [generateLoop]
      rw [ih n (by omega)]
      have e : (n + 2 + 1) / 2 = (n + 1) / 2 + 1 := by omega
      rw [e, Function.iterate_succ_apply]
      rfl

theorem generate_overwrites (g : splitmix64) (buf buf' : List Nat)
    (h : buf'.length = buf.length) : (generate buf' g).1 = (generate buf g).1 := by
  obtain ⟨a1, a2, a3, -⟩ := generateLoop_spec buf.length 0 buf g (Nat.zero_add _)
  obtain ⟨b1, b2, b3, -⟩ := generateLoop_spec buf'.length 0 buf' g (Nat.zero_add _)
  apply List.ext_getElem?
  intro i
  unfold generate
  by_cases hi : i < buf.length
  · rcases Nat.mod_two_eq_zero_or_one i with h0 | h1
    · have e : i = 0 + 2 * (i / 2) := by omega
      rw [e, a2 (i / 2) (by omega), b2 (i / 2) (by omega)]
    · have e : i = 0 + (2 * (i / 2) + 1) := by omega
      rw [e, a3 (i / 2) (by omega), b3 (i / 2) (by omega)]
  · rw [List.getElem?_eq_none (by omega), List.getElem?_eq_none (by omega)]

/-- C18: for every state and every buffer of length `n`, `generate` leaves the object
in the state reached by `ceil(n/2)` calls of `operator()`, writes all `n` words of the
buffer and no other (the buffer keeps its length and nothing of its former content),
and for `n = 0` leaves the state unchanged and writes nothing. -/
theorem generate_draws (g : splitmix64) (buf : List Nat) :
    (generate buf g).2 = step^[(buf.length + 1) / 2] g ∧
    (buf.length + 1) / 2 * 2 = buf.length + buf.length % 2 ∧
    (generate buf g).1.length = buf.length ∧
    (∀ buf' : List Nat, buf'.length = buf.length → (generate buf' g).1 = (generate buf g).1) ∧
    generate [] g = ([], g) := by
  refine ⟨generateLoop_state _ _ _ _, by omega,
    (generateLoop_spec buf.length 0 buf g (Nat.zero_add _)).1,
    fun buf' h => generate_overwrites g buf buf' h, rfl⟩

end splitmix64

namespace xoroshiro128plus

theorem jumpBit_raw (w : Nat) (a h : xoroshiro128plus) (b : Nat) :
    jumpBit w (a.state0, a.state1, h) b =
      ((if w.testBit b then sxor a h else a).state0,
       (if w.testBit b then sxor a h else a).state1, step h) := by
  unfold jumpBit
  by_cases hb : w.testBit b = true
  · rw [if_pos ((and_one_shiftLeft_ne_zero w b).2 hb), if_pos hb]
    rfl
  · rw [if_neg (fun h' => hb ((and_one_shiftLeft_ne_zero w b).1 h')), if_neg hb]
    rfl

/-- The inner loop over the first `n` bits of a word whose bits are the positions
`off, off + 1, ...` of the jump constant. -/
theorem jumpWord_raw (w off : Nat) (g : xoroshiro128plus) (n : Nat)
    (hw : ∀ b, b < n → jumpBitAt (off + b) = w.testBit b) :
    (List.range n).foldl (jumpBit w)
        ((xorOrbit g off).state0, (xorOrbit g off).state1, step^[off] g) =
      ((xorOrbit g (off + n)).state0, (xorOrbit g (off + n)).state1, step^[off + n] g) := by
  induction n with
  | zero => rfl
  | succ n ih =>
    rw [List.range_succ, List.foldl_append, ih (fun b hb => hw b (by omega)), List.foldl_cons,
      List.foldl_nil, jumpBit_raw, ← hw n (by omega), ← Nat.add_assoc, xorOrbit,
      Function.iterate_succ_apply']

theorem jump_loops (g : xoroshiro128plus) :
    JUMP.foldl jumpWord (0, 0, g) =
      ((xorOrbit g 128).state0, (xorOrbit g 128).state1, step^[128] g) := by
  have h0 : ∀ b, b < 64 → jumpBitAt (0 + b) = (0xbeac0467eba5facb : Nat).testBit b := by
    intro b hb
    rw [Nat.zero_add, jumpBitAt, if_pos hb]
  have h1 : ∀ b, b < 64 → jumpBitAt (64 + b) = (0xd86b048b86aa9922 : Nat).testBit b := by
    intro b _
    rw [jumpBitAt, if_neg (by omega), Nat.add_sub_cancel_left]
  have e0 := jumpWord_raw 0xbeac0467eba5facb 0 g 64 h0
  have e1 := jumpWord_raw 0xd86b048b86aa9922 64 g 64 h1
  unfold JUMP
  rw [List.foldl_cons, List.foldl_cons, List.foldl_nil]
  unfold jumpWord
  exact (congrArg (List.foldl (jumpBit 0xd86b048b86aa9922) · (List.range 64)) e0).trans e1

/-- C13: from every state, the two loops of `jump()` make `2 * 64 = 128` turns, each
with one call of `operator()`, so the object is stepped 128 times while the accumulator,
started at `(0, 0)`, gathers the word-wise xor of the states reached after `i` calls
for the positions `i` in `0..127` set in the jump constant; the accumulator becomes the
state only after the loops. -/
theorem jump_xor_orbit (g : xoroshiro128plus) :
    jump g = xorOrbit g 128 ∧
    (JUMP.foldl jumpWord (0, 0, g)).2.2 = step^[128] g ∧
    JUMP.length * (List.range 64).length = 128 ∧
    xorOrbit g 0 = { state0 := 0, state1 := 0 } ∧
    (∀ i, xorOrbit g (i + 1) =
      if jumpBitAt i then sxor (xorOrbit g i) (step^[i] g) else xorOrbit g i) ∧
    (∀ b, b < 64 → jumpBitAt b = (0xbeac0467eba5facb : Nat).testBit b ∧
      jumpBitAt (64 + b) = (0xd86b048b86aa9922 : Nat).testBit b) := by
  refine ⟨?_, ?_, rfl, rfl, fun i => rfl, ?_⟩
  · unfold jump
    rw [jump_loops]
  · rw [jump_loops]
  · intro b hb
    constructor
    · rw [jumpBitAt, if_pos hb]
    · rw [jumpBitAt, if_neg (by omega), Nat.add_sub_cancel_left]

end xoroshiro128plus

namespace xoroshiro128plus

theorem T_left_inv : T ^ (2 ^ 128 - 2) * T = 1 := by
  rw [← pow_succ, show 2 ^ 128 - 2 + 1 = 2 ^ 128 - 1 by norm_num, T_pow_period]

theorem T_right_inv : T * T ^ (2 ^ 128 - 2) = 1 := by
  rw [← pow_succ', show 2 ^ 128 - 2 + 1 = 2 ^ 128 - 1 by norm_num, T_pow_period]

theorem T_injective (a b : WState) (h : T a = T b) : a = b := by
  have e := congrArg (⇑(T ^ (2 ^ 128 - 2))) h
  rw [← End_mul_apply, ← End_mul_apply, T_left_inv, End_one_apply, End_one_apply] at e
  exact e

theorem T_pow_injective (k : Nat) (a b : WState) (h : (T ^ k) a = (T ^ k) b) : a = b := by
  induction k with
  | zero => exact h
  | succ k ih =>
    rw [pow_succ', End_mul_apply, End_mul_apply] at h
    exact ih (T_injective _ _ h)

theorem jump_W (v : WState) : jump v.1 = ((T ^ 2 ^ 64) v).1 := by
  rw [jump_eq_ev, ev_jumppoly]

/-- C16: the state transition is a bijection of the `2^128` states of 64-bit words:
two states with the same successor are equal, and every state is the successor of a
state. -/
theorem step_bijective :
    (∀ a b : xoroshiro128plus, a.WF → b.WF → (next a).2 = (next b).2 → a = b) ∧
    (∀ b : xoroshiro128plus, b.WF → ∃ a : xoroshiro128plus, a.WF ∧ (next a).2 = b) := by
  constructor
  · intro a b ha hb h
    have e : T (ofWF a ha) = T (ofWF b hb) := Subtype.ext h
    exact congrArg Subtype.val (T_injective _ _ e)
  · intro b hb
    refine ⟨((T ^ (2 ^ 128 - 2)) (ofWF b hb)).1, ((T ^ (2 ^ 128 - 2)) (ofWF b hb)).2, ?_⟩
    have e : T ((T ^ (2 ^ 128 - 2)) (ofWF b hb)) = ofWF b hb := by
      rw [← End_mul_apply, T_right_inv, End_one_apply]
    exact congrArg Subtype.val e

theorem step_ne_zero (g : xoroshiro128plus) (h : g.WF) (hnz : g ≠ { state0 := 0, state1 := 0 }) :
    step g ≠ { state0 := 0, state1 := 0 } := by
  intro hc
  apply ne_zero_of_ne g h hnz
  apply T_injective
  rw [map_zero]
  exact Subtype.ext hc

theorem jump_ne_zero (g : xoroshiro128plus) (h : g.WF) (hnz : g ≠ { state0 := 0, state1 := 0 }) :
    jump g ≠ { state0 := 0, state1 := 0 } := by
  intro hc
  apply ne_zero_of_ne g h hnz
  apply T_pow_injective (2 ^ 64)
  rw [map_zero]
  apply Subtype.ext
  rw [← jump_W]
  exact hc

theorem jump_WF (g : xoroshiro128plus) (h : g.WF) : (jump g).WF := by
  have e := jump_W (ofWF g h)
  have e' : jump g = ((T ^ 2 ^ 64) (ofWF g h)).1 := e
  rw [e']
  exact ((T ^ 2 ^ 64) (ofWF g h)).2

theorem apply_keeps (op : Op) (g : xoroshiro128plus) (h : g.WF)
    (hnz : g ≠ { state0 := 0, state1 := 0 }) :
    (op.apply g).WF ∧ op.apply g ≠ { state0 := 0, state1 := 0 } := by
  cases op with
  | next => exact ⟨xo_next_WF g h, step_ne_zero g h hnz⟩
  | jump => exact ⟨jump_WF g h, jump_ne_zero g h hnz⟩
  | discard n =>
    have e : Op.apply (Op.discard n) g = g := discardLoop_self g n
    rw [e]
    exact ⟨h, hnz⟩

theorem run_keeps (ops : List Op) : ∀ (g : xoroshiro128plus), g.WF →
    g ≠ { state0 := 0, state1 := 0 } →
    (run ops g).WF ∧ run ops g ≠ { state0 := 0, state1 := 0 } := by
  induction ops with
  | nil => exact fun g h hnz => ⟨h, hnz⟩
  | cons op ops ih =>
    intro g h hnz
    obtain ⟨h', hnz'⟩ := apply_keeps op g h hnz
    exact ih (op.apply g) h' hnz'

/-- C15: being non-zero is an invariant: from every state of 64-bit words other than
`(0, 0)` the state after `operator()` is not `(0, 0)` and the state after `jump()` is
not `(0, 0)`, and no sequence of calls of `operator()`, `jump()` and `discard(n)` reaches
`(0, 0)`. -/
theorem nonzero_invariant (g : xoroshiro128plus) (h : g.WF)
    (hnz : g ≠ { state0 := 0, state1 := 0 }) :
    (next g).2 ≠ { state0 := 0, state1 := 0 } ∧
    jump g ≠ { state0 := 0, state1 := 0 } ∧
    (∀ k, step^[k] g ≠ { state0 := 0, state1 := 0 }) ∧
    (∀ ops : List Op, run ops g ≠ { state0 := 0, state1 := 0 }) := by
  refine ⟨step_ne_zero g h hnz, jump_ne_zero g h hnz, ?_, fun ops => (run_keeps ops g h hnz).2⟩
  intro k hc
  apply ne_zero_of_ne g h hnz
  apply T_pow_injective k
  rw [map_zero]
  apply Subtype.ext
  rw [T_pow_val]
  exact hc

theorem nonzero_invariant_witness :
    (next { state0 := 1, state1 := 2 }).2 ≠ { state0 := 0, state1 := 0 } ∧
    jump { state0 := 1, state1 := 2 } ≠ { state0 := 0, state1 := 0 } ∧
    (∀ k, step^[k] { state0 := 1, state1 := 2 } ≠ { state0 := 0, state1 := 0 }) ∧
    (∀ ops : List Op, run ops { state0 := 1, state1 := 2 } ≠ { state0 := 0, state1 := 0 }) :=
  nonzero_invariant { state0 := 1, state1 := 2 } (by decide) (by decide)

/-- C19: for every state of 64-bit words, `operator()` followed by `jump()` leaves the
state that `jump()` followed by `operator()` leaves. -/
theorem jump_comm_next (g : xoroshiro128plus) (h : g.WF) :
    jump (next g).2 = (next (jump g)).2 := by
  have e1 : jump (T (ofWF g h)).1 = ((Poly2.ev T JUMPPOLY) (T (ofWF g h))).1 := jump_eq_ev _
  have e2 : jump (ofWF g h).1 = ((Poly2.ev T JUMPPOLY) (ofWF g h)).1 := jump_eq_ev _
  have hc : Poly2.ev T JUMPPOLY * T = T * Poly2.ev T JUMPPOLY := (Poly2.ev_commute T _).eq.symm
  have e3 : (Poly2.ev T JUMPPOLY) (T (ofWF g h)) = T ((Poly2.ev T JUMPPOLY) (ofWF g h)) := by
    rw [← End_mul_apply, hc, End_mul_apply]
  have e4 : jump (next g).2 = (T ((Poly2.ev T JUMPPOLY) (ofWF g h))).1 := by
    rw [← e3]
    exact e1
  rw [e4, T_val, ← e2]
  rfl

theorem jump_comm_next_witness :
    jump (next { state0 := 1, state1 := 2 }).2 = (next (jump { state0 := 1, state1 := 2 })).2 :=
  jump_comm_next { state0 := 1, state1 := 2 } (by decide)

end xoroshiro128plus

namespace splitmix64

theorem shiftRight_xor (x y k : Nat) : (x ^^^ y) >>> k = (x >>> k) ^^^ (y >>> k) := by
  apply Nat.eq_of_testBit_eq
  intro i
  simp only [Nat.testBit_shiftRight, Nat.testBit_xor]

/-- A xor-shift-right by a positive amount is injective. -/
theorem xorshift_injective (k : Nat) (hk : 0 < k) (x y : Nat)
    (h : x ^^^ (x >>> k) = y ^^^ (y >>> k)) : x = y := by
  have e : (x ^^^ y) ^^^ ((x ^^^ y) >>> k) = 0 := by
    rw [shiftRight_xor]
    have : (x ^^^ y) ^^^ ((x >>> k) ^^^ (y >>> k)) =
        (x ^^^ (x >>> k)) ^^^ (y ^^^ (y >>> k)) := by ac_rfl
    rw [this, h, Nat.xor_self]
  have hd : x ^^^ y = (x ^^^ y) / 2 ^ k := by
    rw [← Nat.shiftRight_eq_div_pow]
    exact Nat.xor_eq_zero.1 e
  apply Nat.xor_eq_zero.1
  by_contra hne
  have hlt := Nat.div_lt_self (Nat.pos_of_ne_zero hne) (Nat.one_lt_two_pow (Nat.pos_iff_ne_zero.1 hk))
  rw [← hd] at hlt
  exact lt_irrefl _ hlt

theorem xorshift_lt (k x : Nat) (hx : x < 2 ^ 64) : x ^^^ (x >>> k) < 2 ^ 64 := by
  apply Nat.xor_lt_two_pow hx
  rw [Nat.shiftRight_eq_div_pow]
  exact lt_of_le_of_lt (Nat.div_le_self _ _) hx

/-- Multiplication by an odd constant modulo `2^64` is injective on 64-bit words. -/
theorem mul_odd_injective (c : Nat) (hc : Nat.Coprime 2 c) (a b : Nat) (ha : a < 2 ^ 64)
    (hb : b < 2 ^ 64) (h : a * c % 2 ^ 64 = b * c % 2 ^ 64) : a = b := by
  have hco : Nat.gcd (2 ^ 64) c = 1 := Nat.Coprime.pow_left 64 hc
  have h1 : a ≡ b [MOD 2 ^ 64] := Nat.ModEq.cancel_right_of_coprime hco h
  have h2 : a % 2 ^ 64 = b % 2 ^ 64 := h1
  rw [Nat.mod_eq_of_lt ha, Nat.mod_eq_of_lt hb] at h2
  exact h2

theorem next_injective (a b : splitmix64) (ha : a.WF) (hb : b.WF)
    (h : (next a).1 = (next b).1) : a = b := by
  obtain ⟨s⟩ := a
  obtain ⟨t⟩ := b
  have hs : s < 2 ^ 64 := ha
  have ht : t < 2 ^ 64 := hb
  simp only [next] at h
  have m : ∀ n : Nat, n % 2 ^ 64 < 2 ^ 64 := fun n => Nat.mod_lt _ (by positivity)
  have h3 := xorshift_injective 31 (by norm_num) _ _ h
  have h2 := xorshift_injective 27 (by norm_num) _ _
    (mul_odd_injective _ (by norm_num) _ _ (xorshift_lt 27 _ (m _)) (xorshift_lt 27 _ (m _)) h3)
  have h1 := xorshift_injective 30 (by norm_num) _ _
    (mul_odd_injective _ (by norm_num) _ _ (xorshift_lt 30 _ (m _)) (xorshift_lt 30 _ (m _)) h2)
  have h0 : s ≡ t [MOD 2 ^ 64] := Nat.ModEq.add_left_cancel' _ h1
  have h0' : s % 2 ^ 64 = t % 2 ^ 64 := h0
  rw [Nat.mod_eq_of_lt hs, Nat.mod_eq_of_lt ht] at h0'
  rw [h0']

theorem iterate_step_WF (g : splitmix64) (hg : g.WF) (k : Nat) : (step^[k] g).WF := by
  unfold WF
  rw [iterate_step_state g hg k]
  exact Nat.mod_lt _ (by positivity)

theorem output_lt (g : splitmix64) (k : Nat) : output g k < 2 ^ 64 := next_lt _

theorem output_injective (g : splitmix64) (hg : g.WF) (i j : Nat) (hi : i < 2 ^ 64)
    (hj : j < 2 ^ 64) (h : output g i = output g j) : i = j := by
  have hst := next_injective _ _ (iterate_step_WF g hg i) (iterate_step_WF g hg j) h
  have hs := congrArg splitmix64.state hst
  rw [iterate_step_state g hg i, iterate_step_state g hg j] at hs
  rcases Nat.lt_trichotomy i j with hij | hij | hij
  · have hd := gamma_mul_cancel g.state i j hij.le hs
    have h64 : 2 ^ 64 ≤ j - i := Nat.le_of_dvd (Nat.sub_pos_of_lt hij) hd
    exact absurd (lt_of_le_of_lt (le_trans h64 (Nat.sub_le j i)) hj) (lt_irrefl _)
  · exact hij
  · have hd := gamma_mul_cancel g.state j i hij.le hs.symm
    have h64 : 2 ^ 64 ≤ i - j := Nat.le_of_dvd (Nat.sub_pos_of_lt hij) hd
    exact absurd (lt_of_le_of_lt (le_trans h64 (Nat.sub_le i j)) hi) (lt_irrefl _)

/-- C17: the value returned by `operator()` is an injective function of the 64-bit
state before the call, hence a bijection of the 64-bit words: every 64-bit value is
returned from some state, and from every initial state each 64-bit value is returned
by exactly one of the first `2^64` calls. -/
theorem output_bijective :
    (∀ a b : splitmix64, a.WF → b.WF → (next a).1 = (next b).1 → a = b) ∧
    (∀ v, v < 2 ^ 64 → ∃ a : splitmix64, a.WF ∧ (next a).1 = v) ∧
    (∀ g : splitmix64, g.WF → ∀ v, v < 2 ^ 64 → ∃! k, k < 2 ^ 64 ∧ output g k = v) := by
  refine ⟨next_injective, ?_, ?_⟩
  · intro v hv
    have hinj : Function.Injective
        (fun s : Fin (2 ^ 64) => (⟨(next { state := s.1 }).1, next_lt _⟩ : Fin (2 ^ 64))) := by
      intro s t hst
      have e : (next { state := s.1 }).1 = (next { state := t.1 }).1 := congrArg Fin.val hst
      exact Fin.ext (congrArg splitmix64.state
        (next_injective { state := s.1 } { state := t.1 } s.2 t.2 e))
    obtain ⟨s, hs⟩ := (Finite.injective_iff_surjective.1 hinj) ⟨v, hv⟩
    exact ⟨{ state := s.1 }, s.2, congrArg Fin.val hs⟩
  · intro g hg v hv
    have hinj : Function.Injective
        (fun k : Fin (2 ^ 64) => (⟨output g k.1, output_lt g k.1⟩ : Fin (2 ^ 64))) := by
      intro i j hij
      exact Fin.ext (output_injective g hg i.1 j.1 i.2 j.2 (congrArg Fin.val hij))
    obtain ⟨k, hk⟩ := (Finite.injective_iff_surjective.1 hinj) ⟨v, hv⟩
    have hkv : output g k.1 = v := congrArg Fin.val hk
    refine ⟨k.1, ⟨k.2, hkv⟩, ?_⟩
    rintro k' ⟨hk', hkv'⟩
    exact output_injective g hg k' k.1 hk' k.2 (hkv'.trans hkv.symm)

end splitmix64
